import Mathlib

/-!
Verification of the Texty text-processing engine (`js/text-processor.js`)
against its natural-language specification.  The JavaScript classes
`TextAnalyzer`, `TextFormatter`, `CaseConverter` and `LoremGenerator` are
shallowly embedded as pure Lean functions over `String` / `List Char`;
JavaScript numbers are modelled by `ℚ` (exact arithmetic), `Math.random()`
outcomes by an arbitrary stream of rationals in `[0, 1)`.
-/

namespace Texty

/-! ### Character classes (ASCII, as used by the JavaScript regexes) -/

/-- `[ \t]` — space or tab. -/
def isST (c : Char) : Bool := c == ' ' || c == '\t'

/-- JavaScript `\s` restricted to the ASCII whitespace characters. -/
def isWS (c : Char) : Bool :=
  c == ' ' || c == '\t' || c == '\n' || c == '\r' || c == '\x0b' || c == '\x0c'

/-- `[.!?]` — sentence-ending punctuation. -/
def isSentPunct (c : Char) : Bool := c == '.' || c == '!' || c == '?'

/-- `[,.!?;:]` — punctuation that must not be preceded by whitespace. -/
def isTightPunct (c : Char) : Bool :=
  c == ',' || c == '.' || c == '!' || c == '?' || c == ';' || c == ':'

/-- JavaScript `\w` — `[A-Za-z0-9_]`. -/
def isWordChar (c : Char) : Bool := c.isAlphanum || c == '_'

/-- `[a-z]`. -/
def isLowerAZ (c : Char) : Bool := c.isLower

/-- `[A-Z]`. -/
def isUpperAZ (c : Char) : Bool := c.isUpper

/-- `[aeiouy]` — the vowel-like characters of the syllable counter. -/
def isVowelY (c : Char) : Bool :=
  c == 'a' || c == 'e' || c == 'i' || c == 'o' || c == 'u' || c == 'y'

/-- `[laeiouy]` — the class excluded before a stripped `es`/`e` suffix. -/
def isLVowelY (c : Char) : Bool := c == 'l' || isVowelY c

/-! ### Generic list machinery shared by the embedded functions -/

/-- Split a character list at runs of separator characters (`p`), dropping
empty pieces: the JavaScript idiom `s.split(sepRun).filter(nonEmpty)`. -/
def fieldsAux (p : Char → Bool) : List Char → List Char → List (List Char)
  | acc, [] => if acc.isEmpty then [] else [acc.reverse]
  | acc, c :: t =>
    if p c then
      if acc.isEmpty then fieldsAux p [] t else acc.reverse :: fieldsAux p [] t
    else fieldsAux p (c :: acc) t

def fields (p : Char → Bool) (l : List Char) : List (List Char) := fieldsAux p [] l

/-- JavaScript `String.prototype.trim` (ASCII whitespace). -/
def trimL (l : List Char) : List Char :=
  List.reverse (List.dropWhile isWS (List.reverse (List.dropWhile isWS l)))

def trimS (s : String) : String := String.mk (trimL s.data)

/-- `replace(/[ \t]+/g, ' ')` — collapse space/tab runs to a single space. -/
def collapseST : List Char → List Char
  | [] => []
  | [a] => [if isST a then ' ' else a]
  | a :: b :: t =>
    if isST a && isST b then collapseST (b :: t)
    else (if isST a then ' ' else a) :: collapseST (b :: t)

/-- `replace(/\n[ \t]+/g, '\n')` — drop space/tab runs directly after a
line break.  The Boolean state records whether we are inside such a run. -/
def rmAfterNLAux : Bool → List Char → List Char
  | _, [] => []
  | dropping, c :: t =>
    if dropping && isST c then rmAfterNLAux true t
    else if c == '\n' then '\n' :: rmAfterNLAux true t
    else c :: rmAfterNLAux false t

def rmAfterNL (l : List Char) : List Char := rmAfterNLAux false l

/-- `replace(/[ \t]+\n/g, '\n')` — drop space/tab runs directly before a
line break.  `pend` buffers the current space/tab run (reversed): it is
dropped when a `'\n'` arrives and flushed otherwise. -/
def rmBeforeNLAux (pend : List Char) : List Char → List Char
  | [] => pend.reverse
  | c :: t =>
    if isST c then rmBeforeNLAux (c :: pend) t
    else if c == '\n' then '\n' :: rmBeforeNLAux [] t
    else pend.reverse ++ c :: rmBeforeNLAux [] t

def rmBeforeNL (l : List Char) : List Char := rmBeforeNLAux [] l

/-- No adjacent pair whose first character satisfies `p` and second `q`. -/
def noPairB (p q : Char → Bool) : List Char → Bool
  | a :: b :: t => !(p a && q b) && noPairB p q (b :: t)
  | _ => true

/-- No three consecutive line breaks. -/
def noTripleNLB : List Char → Bool
  | a :: b :: c :: t =>
    !(a == '\n' && b == '\n' && c == '\n') && noTripleNLB (b :: c :: t)
  | _ => true

/-- `replace(/\n{3,}/g, '\n\n')` — cap line-break runs at two. -/
def collapseNL3 : List Char → List Char
  | a :: b :: c :: t =>
    if a == '\n' && b == '\n' && c == '\n' then collapseNL3 (b :: c :: t)
    else a :: collapseNL3 (b :: c :: t)
  | l => l

/-- `replace(/<[^>]*>/g, '')` — remove markup tags.  The state holds the
characters seen since an unmatched `<` (reversed); if the input ends before
a closing `>`, they are emitted unchanged, as the regex finds no match. -/
def stripTagsAux : Option (List Char) → List Char → List Char
  | none, [] => []
  | some pend, [] => '<' :: pend.reverse
  | none, c :: t => if c == '<' then stripTagsAux (some []) t else c :: stripTagsAux none t
  | some pend, c :: t =>
    if c == '>' then stripTagsAux none t else stripTagsAux (some (c :: pend)) t

def stripTags (l : List Char) : List Char := stripTagsAux none l

/-- JavaScript `s.split(sep)` for a single-character separator, keeping
empty pieces. -/
def splitChar (sep : Char) : List Char → List (List Char)
  | [] => [[]]
  | c :: t =>
    if c == sep then [] :: splitChar sep t
    else
      match splitChar sep t with
      | [] => [[c]]
      | h :: r => (c :: h) :: r

/-- `s.split(/\n\s*\n/)`: the separator is a leftmost `'\n'` followed
greedily by whitespace up to a final `'\n'`.  `acc` holds the current piece
(reversed); `pend = some run` means a `'\n'` was seen and `run` (reversed)
is the whitespace read since. -/
def paraAux (acc : List Char) (pend : Option (List Char)) : List Char → List (List Char)
  | [] =>
    match pend with
    | none => [acc.reverse]
    | some run =>
      if run.any (· == '\n') then
        [acc.reverse, (run.takeWhile (· != '\n')).reverse]
      else [(('\n' :: acc).reverse) ++ run.reverse]
  | c :: t =>
    match pend with
    | none =>
      if c == '\n' then paraAux acc (some []) t
      else paraAux (c :: acc) none t
    | some run =>
      if isWS c then paraAux acc (some (c :: run)) t
      else
        if run.any (· == '\n') then
          acc.reverse :: paraAux (c :: run.takeWhile (· != '\n')) none t
        else paraAux (c :: (run ++ ['\n'] ++ acc)) none t

def paraSplit (l : List Char) : List (List Char) := paraAux [] none l

/-! ### `TextAnalyzer` -/

namespace TextAnalyzer

/-- The record returned by `TextAnalyzer.analyze`. -/
structure Stats where
  words : ℕ
  characters : ℕ
  sentences : ℕ
  paragraphs : ℕ
  readingTime : ℤ
  fleschScore : ℤ
  gradeLevel : String
  keywords : List String
  deriving Repr, DecidableEq

/-- `TextAnalyzer.getEmptyStats`. -/
def getEmptyStats : Stats :=
  { words := 0, characters := 0, sentences := 0, paragraphs := 0
    readingTime := 0, fleschScore := 0, gradeLevel := "—", keywords := [] }

/-- `text.trim().split(/\s+/).filter(w => w.length > 0)`. -/
def getWords (text : String) : List String :=
  ((fields isWS (trimL text.data)).filter (fun w => 0 < w.length)).map String.mk

/-- `text.split(/[.!?]+/).filter(s => s.trim().length > 0)`. -/
def getSentences (text : String) : List String :=
  ((fields isSentPunct text.data).filter (fun p => 0 < (trimL p).length)).map String.mk

/-- `text.split(/\n\s*\n/).filter(p => p.trim().length > 0)`. -/
def getParagraphs (text : String) : List String :=
  ((paraSplit text.data).filter (fun p => 0 < (trimL p).length)).map String.mk

/-- One global match step of `/[aeiouy]{1,2}/g`: a greedy group of one or
two vowel-like characters counts once, scanning resumes after it. -/
def countRuns : List Char → ℕ
  | [] => 0
  | a :: t =>
    if isVowelY a then
      match t with
      | [] => 1
      | b :: t2 => if isVowelY b then 1 + countRuns t2 else 1 + countRuns (b :: t2)
    else countRuns t

/-- `word.replace(/(?:[^laeiouy]es|ed|[^laeiouy]e)$/, '')`: the leftmost
end-anchored match tries the three-character alternative `[^laeiouy]es`
first, then `ed`, then `[^laeiouy]e`; the matched characters (including
the class character) are removed. -/
def stripSuffixSyll (l : List Char) : List Char :=
  match l.reverse with
  | 's' :: 'e' :: x :: r => if isLVowelY x then l else r.reverse
  | 'd' :: 'e' :: r => r.reverse
  | 'e' :: x :: r => if isLVowelY x then l else r.reverse
  | _ => l

/-- `word.replace(/^y/, '')`. -/
def stripLeadY : List Char → List Char
  | 'y' :: t => t
  | l => l

/-- `TextAnalyzer.countSyllables`. -/
def countSyllables (w : String) : ℕ :=
  let word := w.data.map Char.toLower
  if word.length ≤ 3 then 1
  else
    let stripped := stripLeadY (stripSuffixSyll word)
    let ms := countRuns stripped
    if ms == 0 then 1 else ms

/-- `TextAnalyzer.calculateAvgSyllables`. -/
def calculateAvgSyllables (words : List String) : ℚ :=
  if words.length = 0 then 0
  else ((words.map (fun w => (countSyllables w : ℚ))).sum) / (words.length : ℚ)

/-- `TextAnalyzer.calculateFleschScore`. -/
def calculateFleschScore (avgWords avgSyllables : ℚ) : ℚ :=
  206.835 - (1.015 * avgWords) - (84.6 * avgSyllables)

/-- `TextAnalyzer.getGradeLevel` (applied by `analyze` to the raw score). -/
def getGradeLevel (score : ℚ) : String :=
  if 90 ≤ score then "5th Grade"
  else if 80 ≤ score then "6th Grade"
  else if 70 ≤ score then "7th Grade"
  else if 60 ≤ score then "8th-9th Grade"
  else if 50 ≤ score then "10th-12th Grade"
  else if 30 ≤ score then "College"
  else "Graduate"

/-- The stop-word set of `TextAnalyzer.extractKeywords`. -/
def stopWords : List String :=
  ["the", "and", "to", "of", "a", "in", "for", "is", "on", "that", "by", "this", "with",
   "i", "you", "it", "not", "or", "be", "are", "from", "at", "as", "your", "all", "any",
   "can", "had", "her", "was", "one", "our", "out", "day", "get", "has", "him", "his",
   "how", "man", "new", "now", "old", "see", "two", "way", "who", "boy", "did", "its",
   "let", "put", "say", "she", "too", "use"]

/-- `word.toLowerCase().replace(/[^\w]/g, '')`. -/
def cleanWord (w : String) : String :=
  String.mk ((w.data.map Char.toLower).filter isWordChar)

/-- `wordCount[w] = (wordCount[w] || 0) + 1` on an insertion-ordered map. -/
def bump : List (String × ℕ) → String → List (String × ℕ)
  | [], w => [(w, 1)]
  | (k, n) :: t, w => if k == w then (k, n + 1) :: t else (k, n) :: bump t w

/-- The frequency map built by `extractKeywords`, in insertion order. -/
def tally (words : List String) : List (String × ℕ) :=
  words.foldl
    (fun acc word =>
      let c := cleanWord word
      if 2 < c.length && !(stopWords.contains c) then bump acc c else acc)
    []

/-- Stable insertion step for `.sort((a, b) => b[1] - a[1])`: an entry goes
before the first later entry whose count is not larger. -/
def insertCountDesc (x : String × ℕ) : List (String × ℕ) → List (String × ℕ)
  | [] => [x]
  | y :: ys => if y.2 ≤ x.2 then x :: y :: ys else y :: insertCountDesc x ys

/-- `.sort((a, b) => b[1] - a[1])` — stable, descending by count. -/
def sortCountDesc (l : List (String × ℕ)) : List (String × ℕ) :=
  l.foldr insertCountDesc []

/-- `TextAnalyzer.extractKeywords`. -/
def extractKeywords (words : List String) : List String :=
  ((sortCountDesc (tally words)).take 7).map (·.1)

/-- `TextAnalyzer.analyze`. -/
def analyze (text : String) : Stats :=
  if trimS text = "" then getEmptyStats
  else
    let words := getWords text
    let sentences := getSentences text
    let avgWordsPerSentence : ℚ := (words.length : ℚ) / ((max sentences.length 1 : ℕ) : ℚ)
    let avgSyllablesPerWord := calculateAvgSyllables words
    let fleschScore := calculateFleschScore avgWordsPerSentence avgSyllablesPerWord
    { words := words.length
      characters := text.data.length
      sentences := sentences.length
      paragraphs := (getParagraphs text).length
      readingTime := ⌈(words.length : ℚ) / 200⌉
      fleschScore := round fleschScore
      gradeLevel := getGradeLevel fleschScore
      keywords := extractKeywords words }

end TextAnalyzer

/-! ### `TextFormatter` -/

namespace TextFormatter

/-- Drop whitespace runs that directly follow a trigger character; applied
to a reversal this removes whitespace runs that precede the trigger.  The
Boolean state is `true` while such a run may continue. -/
def dropWSAfterTrigAux (trig : Char → Bool) : Bool → List Char → List Char
  | _, [] => []
  | st, c :: t =>
    if st && isWS c then dropWSAfterTrigAux trig true t
    else if trig c then c :: dropWSAfterTrigAux trig true t
    else c :: dropWSAfterTrigAux trig false t

/-- `replace(/\s+TRIG/g, 'TRIG')` for a single trigger character class. -/
def rmWSBefore (trig : Char → Bool) (l : List Char) : List Char :=
  (dropWSAfterTrigAux trig false l.reverse).reverse

/-- `replace(/TRIG\s+/g, 'TRIG')` for a single trigger character class. -/
def rmWSAfter (trig : Char → Bool) (l : List Char) : List Char :=
  dropWSAfterTrigAux trig false l

/-- `replace(/([.!?])\s*([A-Z])/g, '$1 $2')`.  The pending state holds a
sentence-ending character and the whitespace (reversed) read since; on an
upper-case letter the run is replaced by one space, otherwise the pending
text is emitted unchanged and scanning continues. -/
def sapAux : Option (Char × List Char) → List Char → List Char
  | none, [] => []
  | some (p, ws), [] => p :: ws.reverse
  | none, c :: t => if isSentPunct c then sapAux (some (c, [])) t else c :: sapAux none t
  | some (p, ws), c :: t =>
    if isWS c then sapAux (some (p, c :: ws)) t
    else if isUpperAZ c then p :: ' ' :: c :: sapAux none t
    else if isSentPunct c then p :: ws.reverse ++ sapAux (some (c, [])) t
    else p :: ws.reverse ++ c :: sapAux none t

def spaceAfterPunct (l : List Char) : List Char := sapAux none l

/-- The scanning part of
`replace(/(^|[.!?]\s+)([a-z])/g, (_, p1, p2) => p1 + p2.toUpperCase())`:
a lower-case letter after sentence punctuation plus at least one
whitespace character is capitalized. -/
def capAux : Option (Char × List Char) → List Char → List Char
  | none, [] => []
  | some (p, ws), [] => p :: ws.reverse
  | none, c :: t => if isSentPunct c then capAux (some (c, [])) t else c :: capAux none t
  | some (p, ws), c :: t =>
    if isWS c then capAux (some (p, c :: ws)) t
    else if isLowerAZ c then
      if ws.isEmpty then p :: c :: capAux none t
      else p :: ws.reverse ++ Char.toUpper c :: capAux none t
    else if isSentPunct c then p :: ws.reverse ++ capAux (some (c, [])) t
    else p :: ws.reverse ++ c :: capAux none t

/-- The full capitalization pass, including the `^` alternative. -/
def capSentences (l : List Char) : List Char :=
  match l with
  | [] => []
  | c :: t => if isLowerAZ c then Char.toUpper c :: capAux none t else capAux none (c :: t)

/-- `replace(/\bi\b/g, 'I')`: `i` with no word character on either side. -/
def fixIAux (prevWord : Bool) : List Char → List Char
  | [] => []
  | c :: t =>
    let nextNonWord := match t with | [] => true | d :: _ => !isWordChar d
    if c == 'i' && !prevWord && nextNonWord then 'I' :: fixIAux true t
    else c :: fixIAux (isWordChar c) t

def fixI (l : List Char) : List Char := fixIAux false l

/-- The `formatLine` closure of `TextFormatter.autoFormat`. -/
def formatLine (line : List Char) : List Char :=
  rmWSAfter (· == '\'')
    (rmWSBefore (· == '\'')
      (fixI
        (capSentences
          (spaceAfterPunct
            (rmWSBefore isTightPunct
              (trimL (collapseST line)))))))

/-- `TextFormatter.autoFormat`. -/
def autoFormat (text : String) : String :=
  if trimS text = "" then ""
  else
    let paragraphs := paraSplit text.data
    let formatted := paragraphs.map (fun para =>
      let lines := splitChar '\n' para
      List.intercalate ['\n']
        (lines.map (fun ln => if (trimL ln).isEmpty then [] else formatLine ln)))
    String.mk (List.intercalate ['\n', '\n'] (formatted.filter (fun p => !p.isEmpty)))

/-- `TextFormatter.stripFormatting`, parameterized by the HTML-entity
decoding step (in the source a DOM `textarea` performs it). -/
def stripFormatting (decode : String → String) (text : String) : String :=
  if text = "" then ""
  else
    let untagged := stripTags text.data
    let decoded := (decode (String.mk untagged)).data
    String.mk (trimL (collapseNL3 (rmBeforeNL (rmAfterNL (collapseST decoded)))))

end TextFormatter

/-! ### `CaseConverter` -/

namespace CaseConverter

/-- `replace(/\w\S*/g, txt => txt.charAt(0).toUpperCase() + txt.substr(1).toLowerCase())`.
The Boolean state is `true` inside a matched token. -/
def titleAux : Bool → List Char → List Char
  | _, [] => []
  | inTok, c :: t =>
    if inTok then
      if isWS c then c :: titleAux false t else Char.toLower c :: titleAux true t
    else
      if isWordChar c then Char.toUpper c :: titleAux true t else c :: titleAux false t

/-- The scanning part of
`replace(/(^|\. *)([a-z])/g, (_, p1, p2) => p1 + p2.toUpperCase())`:
the state counts the literal spaces pending after a `'.'`. -/
def sentAux : Option ℕ → List Char → List Char
  | none, [] => []
  | some n, [] => '.' :: List.replicate n ' '
  | none, c :: t => if c == '.' then sentAux (some 0) t else c :: sentAux none t
  | some n, c :: t =>
    if c == ' ' then sentAux (some (n + 1)) t
    else if isLowerAZ c then '.' :: (List.replicate n ' ' ++ Char.toUpper c :: sentAux none t)
    else if c == '.' then '.' :: (List.replicate n ' ' ++ sentAux (some 0) t)
    else '.' :: (List.replicate n ' ' ++ c :: sentAux none t)

/-- The full sentence-case pass (on the lower-cased text), including the
`^` alternative. -/
def sentenceCase (l : List Char) : List Char :=
  match l with
  | [] => []
  | c :: t => if isLowerAZ c then Char.toUpper c :: sentAux none t else sentAux none (c :: t)

/-- `CaseConverter.convert`. -/
def convert (text : String) (caseType : String) : String :=
  if text = "" then ""
  else if caseType = "upper" then String.mk (text.data.map Char.toUpper)
  else if caseType = "lower" then String.mk (text.data.map Char.toLower)
  else if caseType = "title" then String.mk (titleAux false text.data)
  else if caseType = "sentence" then String.mk (sentenceCase (text.data.map Char.toLower))
  else text

end CaseConverter

/-! ### `LoremGenerator`

`Math.random()` is modelled by a stream `s : ℕ → ℚ` of draws in `[0, 1)`;
the `i`-th call to `Math.random()` returns `s i`, and
`Math.floor(Math.random() * k)` becomes `randFloor s i k`. -/

namespace LoremGenerator

def latin : List String :=
  ["lorem", "ipsum", "dolor", "sit", "amet", "consectetur", "adipiscing", "elit",
   "sed", "do", "eiusmod", "tempor", "incididunt", "ut", "labore", "et", "dolore",
   "magna", "aliqua", "enim", "ad", "minim", "veniam", "quis", "nostrud"]

def english : List String :=
  ["the", "quick", "brown", "fox", "jumps", "over", "lazy", "dog", "beautiful",
   "landscape", "mountain", "river", "forest", "sunshine", "peaceful", "journey",
   "adventure", "discover", "explore", "amazing", "wonderful", "incredible"]

def tech : List String :=
  ["algorithm", "database", "framework", "application", "interface", "protocol",
   "cloud", "microservices", "container", "kubernetes", "docker", "api",
   "scalability", "performance", "infrastructure", "deployment", "optimization"]

def business : List String :=
  ["strategy", "growth", "innovation", "market", "customer", "revenue", "profit",
   "investment", "portfolio", "stakeholder", "partnership", "collaboration",
   "efficiency", "productivity", "transformation", "competitive", "advantage"]

/-- `this.libraries[style] || this.libraries.english`. -/
def libFor (style : String) : List String :=
  if style = "latin" then latin
  else if style = "english" then english
  else if style = "tech" then tech
  else if style = "business" then business
  else english

/-- `Math.floor(Math.random() * k)` for the `i`-th draw of the stream. -/
def randFloor (s : ℕ → ℚ) (i : ℕ) (k : ℕ) : ℕ := (⌊s i * (k : ℚ)⌋).toNat

/-- `LoremGenerator.generateWords` (draw `count` words, join, add `.`);
`idx` is the position of the next unused random draw. -/
def generateWords (s : ℕ → ℚ) (idx : ℕ) (count : ℤ) (lib : List String) : String :=
  let ws := (List.range count.toNat).map (fun j => lib.getD (randFloor s (idx + j) lib.length) "")
  String.intercalate " " ws ++ "."

/-- `txt.charAt(0).toUpperCase() + txt.slice(1)`. -/
def capFirst (w : String) : String :=
  match w.data with
  | [] => ""
  | c :: t => String.mk (Char.toUpper c :: t)

/-- The sentence loop of `LoremGenerator.generateSentences`; returns the
sentences and the next unused draw position. -/
def genSentencesAux (s : ℕ → ℚ) (lib : List String) : ℕ → ℕ → List String × ℕ
  | 0, idx => ([], idx)
  | n + 1, idx =>
    let wordCount := randFloor s idx 12 + 5
    let ws := (List.range wordCount).map
      (fun j => lib.getD (randFloor s (idx + 1 + j) lib.length) "")
    let sentence :=
      match ws with
      | [] => "."
      | w :: rest => String.intercalate " " (capFirst w :: rest) ++ "."
    let res := genSentencesAux s lib n (idx + 1 + wordCount)
    (sentence :: res.1, res.2)

/-- `LoremGenerator.generateSentences`. -/
def generateSentences (s : ℕ → ℚ) (idx : ℕ) (count : ℤ) (lib : List String) : String × ℕ :=
  let res := genSentencesAux s lib count.toNat idx
  (String.intercalate " " res.1, res.2)

/-- The paragraph loop of `LoremGenerator.generateParagraphs`. -/
def genParagraphsAux (s : ℕ → ℚ) (lib : List String) : ℕ → ℕ → List String × ℕ
  | 0, idx => ([], idx)
  | n + 1, idx =>
    let sentenceCount := randFloor s idx 5 + 3
    let para := generateSentences s (idx + 1) (sentenceCount : ℤ) lib
    let res := genParagraphsAux s lib n para.2
    (para.1 :: res.1, res.2)

/-- `LoremGenerator.generateParagraphs`. -/
def generateParagraphs (s : ℕ → ℚ) (idx : ℕ) (count : ℤ) (lib : List String) : String × ℕ :=
  let res := genParagraphsAux s lib count.toNat idx
  (String.intercalate "\n\n" res.1, res.2)

/-- `LoremGenerator.generate`. -/
def generate (s : ℕ → ℚ) (type : String) (count : ℤ) (style : String) : String :=
  let library := libFor style
  if type = "words" then generateWords s 0 count library
  else if type = "sentences" then (generateSentences s 0 count library).1
  else (generateParagraphs s 0 count library).1

end LoremGenerator

/-! ### Specification-side definitions

Definitions in this namespace are written from the wording of the
specification (or from the minimally amended wording, where so named), to
be compared with the embeddings above. -/

namespace Spec

/-- The claim's syllable strip: a trailing `ed`/`e`/`es` that follows a
non-vowel-y character is stripped (only the suffix itself). -/
def claimSyllStrip (l : List Char) : List Char :=
  let r := l.reverse
  if r.take 2 = ['s', 'e'] ∧ ((r.drop 2).head?.any fun x => !isVowelY x) = true then
    (r.drop 2).reverse
  else if r.take 2 = ['d', 'e'] ∧ ((r.drop 2).head?.any fun x => !isVowelY x) = true then
    (r.drop 2).reverse
  else if r.take 1 = ['e'] ∧ ((r.drop 1).head?.any fun x => !isVowelY x) = true then
    (r.drop 1).reverse
  else l

/-- The claim's syllable counter (claimed behaviour of `countSyllables`). -/
def claimCountSyllables (w : String) : ℕ :=
  let word := w.data.map Char.toLower
  if word.length ≤ 3 then 1
  else
    let stripped := TextAnalyzer.stripLeadY (claimSyllStrip word)
    let ms := TextAnalyzer.countRuns stripped
    if ms == 0 then 1 else ms

/-- Amended syllable strip: a trailing `es` or `e` is stripped *together
with* its preceding character when that character is not a vowel, `y`, or
`l`; a trailing `ed` is stripped unconditionally. -/
def syllStripAmended (l : List Char) : List Char :=
  let r := l.reverse
  if r.take 2 = ['s', 'e'] ∧ ((r.drop 2).head?.any fun x => !isLVowelY x) = true then
    (r.drop 3).reverse
  else if r.take 2 = ['d', 'e'] then (r.drop 2).reverse
  else if r.take 1 = ['e'] ∧ ((r.drop 1).head?.any fun x => !isLVowelY x) = true then
    (r.drop 2).reverse
  else l

/-- The amended syllable counter. -/
def amendedCountSyllables (w : String) : ℕ :=
  let word := w.data.map Char.toLower
  if word.length ≤ 3 then 1
  else
    let stripped := TextAnalyzer.stripLeadY (syllStripAmended word)
    let ms := TextAnalyzer.countRuns stripped
    if ms == 0 then 1 else ms

/-- Keyword pipeline over an arbitrary cleaning function: tally in
first-seen order, sort stably by descending count, return the first seven
keys. -/
def keywordsWith (clean : String → String) (words : List String) : List String :=
  ((TextAnalyzer.sortCountDesc
    (words.foldl
      (fun acc word =>
        let c := clean word
        if 2 < c.length && !(TextAnalyzer.stopWords.contains c) then
          TextAnalyzer.bump acc c
        else acc)
      [])).take 7).map (·.1)

/-- The claim's cleaning: lower-case, then keep only alphanumerics. -/
def claimCleanWord (w : String) : String :=
  String.mk ((w.data.map Char.toLower).filter (fun c => c.isAlphanum))

/-- The claim's keyword extraction. -/
def claimKeywords (words : List String) : List String := keywordsWith claimCleanWord words

/-- Amended cleaning: lower-case, then keep ASCII letters, digits and the
underscore (the word characters of the source regex). -/
def amendedCleanWord (w : String) : String :=
  String.mk ((w.data.map Char.toLower).filter (fun c => c.isAlpha || c.isDigit || c == '_'))

/-- The amended keyword extraction. -/
def amendedKeywords (words : List String) : List String := keywordsWith amendedCleanWord words

/-- The claim's sentence-case scan: capitalize a letter only when it
directly follows the two-character boundary `". "` (period-space). -/
def claimSentAux : List Char → List Char
  | '.' :: ' ' :: c :: t => '.' :: ' ' :: Char.toUpper c :: claimSentAux t
  | c :: t => c :: claimSentAux t
  | [] => []

/-- The claim's sentence case: lowercase everything, capitalize the first
letter of the string and each letter following `". "`. -/
def claimSentence (text : String) : String :=
  let l := text.data.map Char.toLower
  String.mk
    (match l with
     | [] => []
     | c :: t => if isLowerAZ c then Char.toUpper c :: claimSentAux t else claimSentAux (c :: t))

/-- The amended sentence-case scan: capitalize a lower-case letter
following a period and *zero or more* spaces. -/
def sentSpec : List Char → List Char
  | [] => []
  | c :: t =>
    if c == '.' then
      match (t.dropWhile (fun x => x == ' ')).head? with
      | some d =>
        if isLowerAZ d then
          '.' :: (t.takeWhile (fun x => x == ' ')
            ++ Char.toUpper d :: sentSpec (t.dropWhile (fun x => x == ' ')).tail)
        else '.' :: sentSpec t
      | none => '.' :: sentSpec t
    else c :: sentSpec t
termination_by l => l.length
decreasing_by
  all_goals simp_wf
  all_goals try omega
  all_goals
    have hlen : ∀ l2 : List Char, (l2.dropWhile (fun x => x == ' ')).length ≤ l2.length := by
      intro l2
      induction l2 with
      | nil => simp
      | cons a t2 ih =>
        simp only [List.dropWhile_cons]
        split
        · exact Nat.le_succ_of_le ih
        · simp
  all_goals have h2 := hlen t
  all_goals have h3 := List.length_tail (t.dropWhile (fun x => x == ' '))
  all_goals omega

/-- The amended sentence case: lowercase everything, capitalize the first
letter of the string and each lower-case letter following a period plus
zero or more spaces. -/
def amendedSentence (text : String) : String :=
  let l := text.data.map Char.toLower
  String.mk
    (match l with
     | [] => []
     | c :: t => if isLowerAZ c then Char.toUpper c :: sentSpec t else sentSpec (c :: t))

/-- Specification wording: collapse every run of spaces/tabs to a single
space (right fold: a space/tab is dropped when a space already follows). -/
def collapseSpacesTabs (l : List Char) : List Char :=
  l.foldr
    (fun c acc =>
      if isST c then (if acc.head? = some ' ' then acc else ' ' :: acc)
      else c :: acc)
    []

/-- Specification wording: remove the spaces/tabs directly following each
line break. -/
def rmTouchAfter : List Char → List Char
  | [] => []
  | c :: t =>
    if c == '\n' then '\n' :: rmTouchAfter (t.dropWhile isST)
    else c :: rmTouchAfter t
termination_by l => l.length
decreasing_by
  all_goals simp_wf
  all_goals try omega
  all_goals
    have hlen : ∀ l2 : List Char, (l2.dropWhile isST).length ≤ l2.length := by
      intro l2
      induction l2 with
      | nil => simp
      | cons a t2 ih =>
        simp only [List.dropWhile_cons]
        split
        · exact Nat.le_succ_of_le ih
        · simp
  all_goals have h2 := hlen t
  all_goals omega

/-- Specification wording: remove each maximal run of spaces/tabs that
directly precedes a line break. -/
def rmTouchBefore : List Char → List Char
  | [] => []
  | c :: t =>
    if isST c then
      if (t.dropWhile isST).head? = some '\n' then rmTouchBefore (t.dropWhile isST)
      else (c :: t.takeWhile isST) ++ rmTouchBefore (t.dropWhile isST)
    else c :: rmTouchBefore t
termination_by l => l.length
decreasing_by
  all_goals simp_wf
  all_goals try omega
  all_goals
    have hlen : ∀ l2 : List Char, (l2.dropWhile isST).length ≤ l2.length := by
      intro l2
      induction l2 with
      | nil => simp
      | cons a t2 ih =>
        simp only [List.dropWhile_cons]
        split
        · exact Nat.le_succ_of_le ih
        · simp
  all_goals have h2 := hlen t
  all_goals omega

/-- Specification wording: collapse runs of three or more line breaks to
exactly two (right fold: a line break is dropped when two already follow). -/
def capBlankLines (l : List Char) : List Char :=
  l.foldr
    (fun c acc =>
      if c == '\n' then (if acc.take 2 = ['\n', '\n'] then acc else c :: acc)
      else c :: acc)
    []

/-- The claim's `stripFormatting` pipeline, written from the
specification's wording, over the same entity-decoding parameter. -/
def stripFormatting (decode : String → String) (text : String) : String :=
  if text = "" then ""
  else
    String.mk (trimL (capBlankLines (rmTouchBefore (rmTouchAfter
      (collapseSpacesTabs ((decode (String.mk (stripTags text.data))).data))))))

end Spec

/-! ### Supporting lemmas -/

namespace LoremGenerator

theorem libFor_length_pos (style : String) : 0 < (libFor style).length := by
  unfold libFor
  split
  · decide
  · split
    · decide
    · split
      · decide
      · split
        · decide
        · decide

theorem randFloor_lt (s : ℕ → ℚ) (i k : ℕ) (h0 : 0 ≤ s i) (h1 : s i < 1) (hk : 0 < k) :
    randFloor s i k < k := by
  have hklt : s i * (k : ℚ) < (k : ℚ) := by
    have hkq : (0 : ℚ) < (k : ℚ) := by exact_mod_cast hk
    calc s i * (k : ℚ) < 1 * (k : ℚ) := by exact mul_lt_mul_of_pos_right h1 hkq
      _ = (k : ℚ) := one_mul _
  have hfl : ⌊s i * (k : ℚ)⌋ < (k : ℤ) := Int.floor_lt.mpr (by exact_mod_cast hklt)
  have hnn : 0 ≤ ⌊s i * (k : ℚ)⌋ :=
    Int.floor_nonneg.mpr (mul_nonneg h0 (by positivity))
  unfold randFloor
  omega

theorem getD_mem_of_lt {l : List String} {i : ℕ} (h : i < l.length) (d : String) :
    l.getD i d ∈ l := by
  rw [List.getD_eq_getElem?_getD, List.getElem?_eq_getElem h]
  exact List.getElem_mem h

end LoremGenerator

theorem dropWhile_all_WS (l : List Char) (h : ∀ c ∈ l, isWS c = true) :
    l.dropWhile isWS = [] := by
  induction l with
  | nil => rfl
  | cons a t ih =>
    rw [List.dropWhile_cons, if_pos (h a (List.mem_cons_self a t))]
    exact ih (fun c hc => h c (List.mem_cons_of_mem a hc))

theorem trimS_eq_empty_of_all_WS (text : String) (h : ∀ c ∈ text.data, isWS c = true) :
    trimS text = "" := by
  show String.mk (trimL text.data) = ""
  rw [show trimL text.data = [] from by
    simp only [trimL]
    rw [dropWhile_all_WS text.data h]
    rfl]

/-! ### Claim theorems -/

/-- C7: `analyze("")`, and `analyze` of any string consisting solely of
whitespace characters, return a record with all numeric fields zero, empty
keywords, and the placeholder grade level `"—"`. -/
theorem c7_analyze_empty :
    TextAnalyzer.analyze "" =
      ({ words := 0, characters := 0, sentences := 0, paragraphs := 0,
         readingTime := 0, fleschScore := 0, gradeLevel := "—", keywords := [] } :
        TextAnalyzer.Stats) ∧
    ∀ text : String, (∀ c ∈ text.data, isWS c = true) →
      TextAnalyzer.analyze text =
        ({ words := 0, characters := 0, sentences := 0, paragraphs := 0,
           readingTime := 0, fleschScore := 0, gradeLevel := "—", keywords := [] } :
          TextAnalyzer.Stats) := by
  constructor
  · decide
  · intro text h
    unfold TextAnalyzer.analyze
    rw [if_pos (trimS_eq_empty_of_all_WS text h)]
    rfl

/-- Witness: `"   \t\n "` is whitespace-only, and `analyze` maps it to the
all-zero record. -/
theorem c7_analyze_empty_witness :
    (∀ c ∈ ("   \t\n " : String).data, isWS c = true) ∧
    TextAnalyzer.analyze "   \t\n " =
      ({ words := 0, characters := 0, sentences := 0, paragraphs := 0,
         readingTime := 0, fleschScore := 0, gradeLevel := "—", keywords := [] } :
        TextAnalyzer.Stats) :=
  ⟨by decide, c7_analyze_empty.2 "   \t\n " (by decide)⟩

/-- C4: `autoFormat` is not idempotent: on `"a.i"` one application yields
`"A.I"` (the `i → I` fix runs after the punctuation-spacing step), and a
second application inserts the missing space, yielding `"A. I"`. -/
theorem c4_autoFormat_not_idempotent :
    TextFormatter.autoFormat "a.i" = "A.I" ∧
    TextFormatter.autoFormat (TextFormatter.autoFormat "a.i") = "A. I" ∧
    TextFormatter.autoFormat (TextFormatter.autoFormat "a.i") ≠
      TextFormatter.autoFormat "a.i" := by
  decide

/-- C10: for any kind other than `"words"` and `"sentences"`, `generate`
falls through to paragraph generation. -/
theorem c10_generate_fallthrough (s : ℕ → ℚ) (kind : String) (count : ℤ) (style : String)
    (h1 : kind ≠ "words") (h2 : kind ≠ "sentences") :
    LoremGenerator.generate s kind count style =
      (LoremGenerator.generateParagraphs s 0 count (LoremGenerator.libFor style)).1 := by
  unfold LoremGenerator.generate
  rw [if_neg h1, if_neg h2]

/-- Witness for C10 at the unrecognized kind `"chars"`. -/
theorem c10_generate_fallthrough_witness :
    ("chars" : String) ≠ "words" ∧ ("chars" : String) ≠ "sentences" ∧
    LoremGenerator.generate (fun _ => 0) "chars" 1 "" =
      (LoremGenerator.generateParagraphs (fun _ => 0) 0 1 (LoremGenerator.libFor "")).1 :=
  ⟨by decide, by decide,
    c10_generate_fallthrough (fun _ => 0) "chars" 1 "" (by decide) (by decide)⟩

/-- C8: for every outcome of the random source, `generate('words', count,
style)` returns exactly `count` tokens of the selected library joined by
single spaces with a trailing period, and degrades to a minimal string
`"."` for zero or negative `count`. -/
theorem c8_generate_words (s : ℕ → ℚ) (hs : ∀ i, 0 ≤ s i ∧ s i < 1)
    (count : ℤ) (style : String) :
    (1 ≤ count → ∃ tokens : List String,
      (tokens.length : ℤ) = count ∧
      (∀ t ∈ tokens, t ∈ LoremGenerator.libFor style) ∧
      LoremGenerator.generate s "words" count style =
        String.intercalate " " tokens ++ ".") ∧
    (count ≤ 0 → LoremGenerator.generate s "words" count style = ".") := by
  constructor
  · intro hc
    refine ⟨(List.range count.toNat).map
      (fun j => (LoremGenerator.libFor style).getD
        (LoremGenerator.randFloor s (0 + j) (LoremGenerator.libFor style).length) ""), ?_, ?_, ?_⟩
    · rw [List.length_map, List.length_range]
      omega
    · intro t ht
      rcases List.mem_map.mp ht with ⟨j, _, rfl⟩
      exact LoremGenerator.getD_mem_of_lt
        (LoremGenerator.randFloor_lt s (0 + j) _ (hs (0 + j)).1 (hs (0 + j)).2
          (LoremGenerator.libFor_length_pos style)) ""
    · rfl
  · intro hc
    have h0 : count.toNat = 0 := by omega
    unfold LoremGenerator.generate LoremGenerator.generateWords
    rw [if_pos rfl, h0]
    rfl

/-- In the non-blank branch, `analyze` reports the rounded raw score and
the grade level of the unrounded raw score. -/
theorem analyze_nonblank (text : String) (h : ¬ trimS text = "") :
    (TextAnalyzer.analyze text).fleschScore =
      round (TextAnalyzer.calculateFleschScore
        (((TextAnalyzer.getWords text).length : ℚ)
          / ((max (TextAnalyzer.getSentences text).length 1 : ℕ) : ℚ))
        (TextAnalyzer.calculateAvgSyllables (TextAnalyzer.getWords text))) ∧
    (TextAnalyzer.analyze text).gradeLevel =
      TextAnalyzer.getGradeLevel (TextAnalyzer.calculateFleschScore
        (((TextAnalyzer.getWords text).length : ℚ)
          / ((max (TextAnalyzer.getSentences text).length 1 : ℕ) : ℚ))
        (TextAnalyzer.calculateAvgSyllables (TextAnalyzer.getWords text))) := by
  unfold TextAnalyzer.analyze
  rw [if_neg h]
  exact ⟨rfl, rfl⟩

/-- C1 (amended): for non-blank input, `analyze` returns `fleschScore`
equal to the rounded Flesch formula (sentence count floored at one in the
division), and `gradeLevel` equal to the threshold mapping applied to the
*unrounded* score. -/
theorem c1_flesch_score_and_grade (text : String) (h : ¬ trimS text = "") :
    (TextAnalyzer.analyze text).fleschScore =
      round ((206.835 : ℚ)
        - 1.015 * (((TextAnalyzer.getWords text).length : ℚ)
            / ((max (TextAnalyzer.getSentences text).length 1 : ℕ) : ℚ))
        - 84.6 * TextAnalyzer.calculateAvgSyllables (TextAnalyzer.getWords text)) ∧
    (TextAnalyzer.analyze text).gradeLevel =
      TextAnalyzer.getGradeLevel ((206.835 : ℚ)
        - 1.015 * (((TextAnalyzer.getWords text).length : ℚ)
            / ((max (TextAnalyzer.getSentences text).length 1 : ℕ) : ℚ))
        - 84.6 * TextAnalyzer.calculateAvgSyllables (TextAnalyzer.getWords text)) :=
  analyze_nonblank text h

/-- Witness for C1 at the concrete input `"hi."`. -/
theorem c1_flesch_score_and_grade_witness :
    ¬ trimS "hi." = "" ∧
    ((TextAnalyzer.analyze "hi.").fleschScore =
      round ((206.835 : ℚ)
        - 1.015 * (((TextAnalyzer.getWords "hi.").length : ℚ)
            / ((max (TextAnalyzer.getSentences "hi.").length 1 : ℕ) : ℚ))
        - 84.6 * TextAnalyzer.calculateAvgSyllables (TextAnalyzer.getWords "hi.")) ∧
    (TextAnalyzer.analyze "hi.").gradeLevel =
      TextAnalyzer.getGradeLevel ((206.835 : ℚ)
        - 1.015 * (((TextAnalyzer.getWords "hi.").length : ℚ)
            / ((max (TextAnalyzer.getSentences "hi.").length 1 : ℕ) : ℚ))
        - 84.6 * TextAnalyzer.calculateAvgSyllables (TextAnalyzer.getWords "hi."))) :=
  ⟨by decide, c1_flesch_score_and_grade "hi." (by decide)⟩

/-- C1 counterexample: thirty-two one-syllable words in one sentence give
a raw score of `89.755`; the reported `fleschScore` rounds to `90`, whose
threshold is `"5th Grade"`, but the reported `gradeLevel` is computed from
the unrounded score and is `"6th Grade"`. -/
theorem c1_grade_not_from_rounded_counterexample :
    (TextAnalyzer.analyze
      "a a a a a a a a a a a a a a a a a a a a a a a a a a a a a a a a.").fleschScore = 90 ∧
    TextAnalyzer.getGradeLevel ((90 : ℤ) : ℚ) = "5th Grade" ∧
    (TextAnalyzer.analyze
      "a a a a a a a a a a a a a a a a a a a a a a a a a a a a a a a a.").gradeLevel =
      "6th Grade" := by
  have h := analyze_nonblank
    "a a a a a a a a a a a a a a a a a a a a a a a a a a a a a a a a." (by decide)
  have hw : (TextAnalyzer.getWords
      "a a a a a a a a a a a a a a a a a a a a a a a a a a a a a a a a.").length = 32 := by
    decide
  have hs : (TextAnalyzer.getSentences
      "a a a a a a a a a a a a a a a a a a a a a a a a a a a a a a a a.").length = 1 := by
    decide
  have hsylN : (TextAnalyzer.getWords
      "a a a a a a a a a a a a a a a a a a a a a a a a a a a a a a a a.").map
      TextAnalyzer.countSyllables = List.replicate 32 1 := by decide
  have havg : TextAnalyzer.calculateAvgSyllables (TextAnalyzer.getWords
      "a a a a a a a a a a a a a a a a a a a a a a a a a a a a a a a a.") = 1 := by
    unfold TextAnalyzer.calculateAvgSyllables
    rw [if_neg (by rw [hw]; omega)]
    have hq : (TextAnalyzer.getWords
        "a a a a a a a a a a a a a a a a a a a a a a a a a a a a a a a a.").map
        (fun w => (TextAnalyzer.countSyllables w : ℚ)) = List.replicate 32 (1 : ℚ) := by
      have h2 := congrArg (List.map (fun n : ℕ => (n : ℚ))) hsylN
      rw [List.map_map] at h2
      simpa using h2
    rw [hq, hw]
    norm_num [List.sum_replicate]
  rw [h.1, h.2, hw, hs, havg]
  refine ⟨?_, ?_, ?_⟩
  · norm_num [TextAnalyzer.calculateFleschScore, round_eq]
  · norm_num [TextAnalyzer.getGradeLevel]
  · norm_num [TextAnalyzer.calculateFleschScore, TextAnalyzer.getGradeLevel]

/-- Witness for C8 with the constant-zero random stream, five words and
the English library. -/
theorem c8_generate_words_witness :
    (1 ≤ (5 : ℤ) → ∃ tokens : List String,
      (tokens.length : ℤ) = 5 ∧
      (∀ t ∈ tokens, t ∈ LoremGenerator.libFor "english") ∧
      LoremGenerator.generate (fun _ => 0) "words" 5 "english" =
        String.intercalate " " tokens ++ ".") ∧
    ((5 : ℤ) ≤ 0 → LoremGenerator.generate (fun _ => 0) "words" 5 "english" = ".") :=
  c8_generate_words (fun _ => 0) (fun _ => ⟨le_refl 0, by norm_num⟩) 5 "english"

/-! ### C2: the syllable counter -/

theorem take_two_head_decomp {r : List Char} {c1 c2 x : Char}
    (h1 : r.take 2 = [c1, c2]) (h2 : (r.drop 2).head? = some x) :
    r = c1 :: c2 :: x :: (r.drop 2).tail := by
  cases r with
  | nil => simp at h1
  | cons a t =>
    cases t with
    | nil => simp at h1
    | cons b t2 =>
      simp only [List.take, List.cons.injEq] at h1
      obtain ⟨rfl, rfl, -⟩ := h1
      cases t2 with
      | nil => simp at h2
      | cons y t3 =>
        simp only [List.drop, List.head?] at h2 ⊢
        cases h2
        rfl

theorem take_two_decomp {r : List Char} {c1 c2 : Char} (h1 : r.take 2 = [c1, c2]) :
    r = c1 :: c2 :: r.drop 2 := by
  cases r with
  | nil => simp at h1
  | cons a t =>
    cases t with
    | nil => simp at h1
    | cons b t2 =>
      simp only [List.take, List.cons.injEq] at h1
      obtain ⟨rfl, rfl, -⟩ := h1
      rfl

theorem take_one_head_decomp {r : List Char} {c1 x : Char}
    (h1 : r.take 1 = [c1]) (h2 : (r.drop 1).head? = some x) :
    r = c1 :: x :: (r.drop 1).tail := by
  cases r with
  | nil => simp at h1
  | cons a t =>
    simp only [List.take, List.cons.injEq] at h1
    obtain ⟨rfl, -⟩ := h1
    cases t with
    | nil => simp at h2
    | cons y t3 =>
      simp only [List.drop, List.head?] at h2 ⊢
      cases h2
      rfl

theorem syllStrip_amended_eq (l : List Char) :
    Spec.syllStripAmended l = TextAnalyzer.stripSuffixSyll l := by
  unfold TextAnalyzer.stripSuffixSyll
  split
  · -- l.reverse = 's' :: 'e' :: x :: r
    rename_i x r heq
    by_cases hx : isLVowelY x <;> simp [Spec.syllStripAmended, heq, hx]
  · -- l.reverse = 'd' :: 'e' :: r
    rename_i r heq
    simp [Spec.syllStripAmended, heq]
  · -- l.reverse = 'e' :: x :: r
    rename_i x r heq
    by_cases hx : isLVowelY x <;> simp [Spec.syllStripAmended, heq, hx]
  · -- no pattern matches: all specification branches are vacuous
    rename_i h1 h2 h3
    unfold Spec.syllStripAmended
    rw [if_neg, if_neg, if_neg]
    · intro ⟨ht, ha⟩
      rcases ho : (l.reverse.drop 1).head? with - | x
      · rw [ho] at ha
        simp at ha
      · simp only [ho, Option.any_some] at ha
        exact h3 x (l.reverse.drop 1).tail (take_one_head_decomp ht ho)
    · intro ht
      exact h2 (l.reverse.drop 2) (take_two_decomp ht)
    · intro ⟨ht, ha⟩
      rcases ho : (l.reverse.drop 2).head? with - | x
      · rw [ho] at ha
        simp at ha
      · simp only [ho, Option.any_some] at ha
        exact h1 x (l.reverse.drop 2).tail (take_two_head_decomp ht ho)

/-- C2 counterexample: the source keeps `"tables"` intact (the class
`[^laeiouy]` also excludes `l`), counting 2, while the claimed algorithm
strips the trailing `es` after the non-vowel-y `l` and counts 1. -/
theorem c2_syllables_counterexample :
    TextAnalyzer.countSyllables "tables" = 2 ∧ Spec.claimCountSyllables "tables" = 1 := by
  decide

/-- C2 (amended): `countSyllables` lowercases, returns 1 for length ≤ 3,
otherwise strips `es`/`e` together with a preceding character that is not
a vowel, `y` or `l` (or an unconditional trailing `ed`), strips a leading
`y`, and counts vowel-like groups of one or two, flooring at 1; in
particular `countSyllables "cat" = 1` and `countSyllables "beautiful" ≥ 2`. -/
theorem c2_count_syllables :
    (∀ w : String, TextAnalyzer.countSyllables w = Spec.amendedCountSyllables w) ∧
    TextAnalyzer.countSyllables "cat" = 1 ∧
    2 ≤ TextAnalyzer.countSyllables "beautiful" := by
  refine ⟨fun w => ?_, by decide, by decide⟩
  unfold TextAnalyzer.countSyllables Spec.amendedCountSyllables
  simp only [syllStrip_amended_eq]

/-! ### C3: keyword extraction -/

theorem amendedCleanWord_eq (w : String) :
    Spec.amendedCleanWord w = TextAnalyzer.cleanWord w := by
  unfold Spec.amendedCleanWord TextAnalyzer.cleanWord
  have hp : (fun c : Char => c.isAlpha || c.isDigit || c == '_') = isWordChar := by
    funext c
    simp [isWordChar, Char.isAlphanum, Bool.or_assoc]
  rw [hp]

theorem bump_fst {P : String → Prop} (acc : List (String × ℕ)) (w : String)
    (hacc : ∀ e ∈ acc, P e.1) (hw : P w) :
    ∀ e ∈ TextAnalyzer.bump acc w, P e.1 := by
  induction acc with
  | nil =>
    intro e he
    simp only [TextAnalyzer.bump, List.mem_singleton] at he
    subst he
    exact hw
  | cons hd tl ih =>
    intro e he
    obtain ⟨k, n⟩ := hd
    simp only [TextAnalyzer.bump] at he
    by_cases hk : k == w
    · rw [if_pos hk] at he
      rcases List.mem_cons.mp he with rfl | htl
      · exact hacc (k, n) (List.mem_cons_self _ _)
      · exact hacc e (List.mem_cons_of_mem _ htl)
    · rw [if_neg hk] at he
      rcases List.mem_cons.mp he with rfl | htl
      · exact hacc (k, n) (List.mem_cons_self _ _)
      · exact ih (fun e' he' => hacc e' (List.mem_cons_of_mem _ he')) e htl

theorem tally_fst (ws : List String) (acc : List (String × ℕ))
    (hacc : ∀ e ∈ acc, 2 < e.1.length ∧ e.1 ∉ TextAnalyzer.stopWords) :
    ∀ e ∈ ws.foldl
      (fun acc word =>
        let c := TextAnalyzer.cleanWord word
        if 2 < c.length && !(TextAnalyzer.stopWords.contains c) then
          TextAnalyzer.bump acc c
        else acc)
      acc,
      2 < e.1.length ∧ e.1 ∉ TextAnalyzer.stopWords := by
  induction ws generalizing acc with
  | nil => simpa using hacc
  | cons w ws ih =>
    intro e he
    simp only [List.foldl_cons] at he
    by_cases hc : (2 < (TextAnalyzer.cleanWord w).length
        && !(TextAnalyzer.stopWords.contains (TextAnalyzer.cleanWord w))) = true
    · rw [if_pos hc] at he
      refine ih _ ?_ e he
      refine @bump_fst (fun s => 2 < s.length ∧ s ∉ TextAnalyzer.stopWords) acc _ hacc ?_
      rcases Bool.and_eq_true_iff.mp hc with ⟨h1, h2⟩
      refine ⟨by simpa using h1, fun hmem => ?_⟩
      have hcont : TextAnalyzer.stopWords.contains (TextAnalyzer.cleanWord w) = true :=
        List.elem_eq_true_of_mem hmem
      rw [Bool.not_eq_true'] at h2
      rw [hcont] at h2
      exact absurd h2 (by decide)
    · rw [if_neg hc] at he
      exact ih acc hacc e he

theorem mem_insertCountDesc {e x : String × ℕ} {l : List (String × ℕ)}
    (h : e ∈ TextAnalyzer.insertCountDesc x l) : e = x ∨ e ∈ l := by
  induction l with
  | nil => simpa [TextAnalyzer.insertCountDesc] using h
  | cons y ys ih =>
    simp only [TextAnalyzer.insertCountDesc] at h
    by_cases hc : y.2 ≤ x.2
    · rw [if_pos hc] at h
      rcases List.mem_cons.mp h with rfl | h2
      · exact Or.inl rfl
      · exact Or.inr h2
    · rw [if_neg hc] at h
      rcases List.mem_cons.mp h with rfl | h2
      · exact Or.inr (List.mem_cons_self _ _)
      · rcases ih h2 with h3 | h3
        · exact Or.inl h3
        · exact Or.inr (List.mem_cons_of_mem _ h3)

theorem mem_sortCountDesc {e : String × ℕ} {l : List (String × ℕ)}
    (h : e ∈ TextAnalyzer.sortCountDesc l) : e ∈ l := by
  induction l with
  | nil => simp [TextAnalyzer.sortCountDesc] at h
  | cons y ys ih =>
    simp only [TextAnalyzer.sortCountDesc, List.foldr_cons] at h
    rcases mem_insertCountDesc h with rfl | h2
    · exact List.mem_cons_self _ _
    · exact List.mem_cons_of_mem _ (ih h2)

/-- C3 counterexample: underscores survive the source's `[^\w]` cleaning,
so `["a_b"]` yields the keyword `"a_b"`, while the claimed
strip-non-alphanumeric cleaning reduces it to `"ab"` (length 2) and
discards it. -/
theorem c3_keywords_counterexample :
    TextAnalyzer.extractKeywords ["a_b"] = ["a_b"] ∧
    Spec.claimKeywords ["a_b"] = [] := by
  decide

/-- C3 (amended): keyword extraction lowercases each word, strips all
characters other than ASCII letters, digits and underscore, discards
cleaned tokens of length ≤ 2 or stop words, tallies in first-seen order,
sorts stably by descending frequency, and returns at most 7 entries, never
a stop word or a short token. -/
theorem c3_extract_keywords :
    (∀ ws : List String, TextAnalyzer.extractKeywords ws = Spec.amendedKeywords ws) ∧
    (∀ ws : List String, (TextAnalyzer.extractKeywords ws).length ≤ 7 ∧
      ∀ k ∈ TextAnalyzer.extractKeywords ws,
        2 < k.length ∧ k ∉ TextAnalyzer.stopWords) := by
  constructor
  · intro ws
    unfold TextAnalyzer.extractKeywords TextAnalyzer.tally Spec.amendedKeywords
      Spec.keywordsWith
    simp only [amendedCleanWord_eq]
  · intro ws
    constructor
    · unfold TextAnalyzer.extractKeywords
      rw [List.length_map, List.length_take]
      exact min_le_left _ _
    · intro k hk
      unfold TextAnalyzer.extractKeywords at hk
      rcases List.mem_map.mp hk with ⟨e, he, rfl⟩
      exact tally_fst ws [] (by simp) e
        (mem_sortCountDesc (List.mem_of_mem_take he))

/-- Witness for C3 at a concrete word list. -/
theorem c3_extract_keywords_witness :
    TextAnalyzer.extractKeywords ["Hello", "hello!", "of"] =
      Spec.amendedKeywords ["Hello", "hello!", "of"] ∧
    (TextAnalyzer.extractKeywords ["Hello", "hello!", "of"]).length ≤ 7 ∧
    (2 < "hello".length ∧ "hello" ∉ TextAnalyzer.stopWords) :=
  ⟨c3_extract_keywords.1 ["Hello", "hello!", "of"],
    (c3_extract_keywords.2 ["Hello", "hello!", "of"]).1,
    (c3_extract_keywords.2 ["Hello", "hello!", "of"]).2 "hello" (by decide)⟩
/-! ### C6: sentence case -/

theorem sentSpec_nil : Spec.sentSpec [] = [] := by
  rw [Spec.sentSpec]

theorem sentSpec_cons_ne (c : Char) (t : List Char) (h : (c == '.') = false) :
    Spec.sentSpec (c :: t) = c :: Spec.sentSpec t := by
  rw [Spec.sentSpec]
  simp [h]

theorem sentSpec_dot (t : List Char) :
    Spec.sentSpec ('.' :: t) =
      match (t.dropWhile (fun x => x == ' ')).head? with
      | some d =>
        if isLowerAZ d then
          '.' :: (t.takeWhile (fun x => x == ' ')
            ++ Char.toUpper d :: Spec.sentSpec (t.dropWhile (fun x => x == ' ')).tail)
        else '.' :: Spec.sentSpec t
      | none => '.' :: Spec.sentSpec t := by
  rw [Spec.sentSpec, if_pos (show (('.' : Char) == '.') = true from rfl)]

theorem dropWhile_sp_replicate (n : ℕ) :
    (List.replicate n ' ').dropWhile (fun x => x == ' ') = [] := by
  induction n with
  | zero => rfl
  | succ n ih =>
    rw [List.replicate_succ, List.dropWhile_cons_of_pos (by simp)]
    exact ih

theorem dropWhile_sp_replicate_cons {c : Char} (h : (c == ' ') = false) (n : ℕ)
    (t : List Char) :
    (List.replicate n ' ' ++ c :: t).dropWhile (fun x => x == ' ') = c :: t := by
  induction n with
  | zero =>
    rw [List.replicate, List.nil_append, List.dropWhile_cons_of_neg (by simp [h])]
  | succ n ih =>
    rw [List.replicate_succ, List.cons_append, List.dropWhile_cons_of_pos (by simp)]
    exact ih

theorem takeWhile_sp_replicate_cons {c : Char} (h : (c == ' ') = false) (n : ℕ)
    (t : List Char) :
    (List.replicate n ' ' ++ c :: t).takeWhile (fun x => x == ' ') = List.replicate n ' ' := by
  induction n with
  | zero =>
    rw [List.replicate, List.nil_append, List.takeWhile_cons_of_neg (by simp [h])]
  | succ n ih =>
    rw [List.replicate_succ, List.cons_append, List.takeWhile_cons_of_pos (by simp), ih]

theorem sentSpec_replicate (n : ℕ) :
    Spec.sentSpec (List.replicate n ' ') = List.replicate n ' ' := by
  induction n with
  | zero => exact sentSpec_nil
  | succ n ih =>
    rw [List.replicate_succ, sentSpec_cons_ne ' ' _ (by decide), ih]

theorem sentSpec_replicate_append (n : ℕ) (l : List Char) :
    Spec.sentSpec (List.replicate n ' ' ++ l) = List.replicate n ' ' ++ Spec.sentSpec l := by
  induction n with
  | zero => simp
  | succ n ih =>
    rw [List.replicate_succ, List.cons_append, sentSpec_cons_ne ' ' _ (by decide), ih,
      List.cons_append]

theorem sentAux_eq (l : List Char) :
    CaseConverter.sentAux none l = Spec.sentSpec l ∧
    ∀ n, CaseConverter.sentAux (some n) l =
      Spec.sentSpec ('.' :: (List.replicate n ' ' ++ l)) := by
  induction l with
  | nil =>
    refine ⟨sentSpec_nil.symm, fun n => ?_⟩
    show '.' :: List.replicate n ' ' = _
    rw [List.append_nil, sentSpec_dot, dropWhile_sp_replicate]
    simp only [List.head?_nil]
    rw [sentSpec_replicate]
  | cons c t ih =>
    constructor
    · show (if c == '.' then CaseConverter.sentAux (some 0) t
        else c :: CaseConverter.sentAux none t) = _
      by_cases hc : (c == '.') = true
      · have hc2 : c = '.' := by simpa using hc
        subst hc2
        rw [if_pos hc]
        simpa using ih.2 0
      · rw [if_neg (by simp_all), sentSpec_cons_ne c t (by simp_all), ih.1]
    · intro n
      show (if c == ' ' then CaseConverter.sentAux (some (n + 1)) t
        else if isLowerAZ c then
          '.' :: (List.replicate n ' ' ++ Char.toUpper c :: CaseConverter.sentAux none t)
        else if c == '.' then
          '.' :: (List.replicate n ' ' ++ CaseConverter.sentAux (some 0) t)
        else '.' :: (List.replicate n ' ' ++ c :: CaseConverter.sentAux none t)) = _
      by_cases hsp : (c == ' ') = true
      · have hc2 : c = ' ' := by simpa using hsp
        subst hc2
        rw [if_pos hsp, ih.2 (n + 1),
          show List.replicate n ' ' ++ ' ' :: t = List.replicate (n + 1) ' ' ++ t from by
            rw [List.replicate_succ', List.append_assoc]
            rfl]
      · rw [if_neg (by simp_all)]
        by_cases hlow : isLowerAZ c = true
        · rw [if_pos hlow, sentSpec_dot, dropWhile_sp_replicate_cons (by simp_all),
            takeWhile_sp_replicate_cons (by simp_all)]
          simp only [List.head?_cons, List.tail_cons, hlow, if_pos]
          rw [ih.1]
        · rw [if_neg hlow]
          by_cases hdot : (c == '.') = true
          · have hc2 : c = '.' := by simpa using hdot
            subst hc2
            rw [if_pos hdot, sentSpec_dot, dropWhile_sp_replicate_cons (by decide)]
            simp only [List.head?_cons]
            rw [if_neg (by simp_all), sentSpec_replicate_append, ih.2 0]
            simp
          · rw [if_neg hdot, sentSpec_dot, dropWhile_sp_replicate_cons (by simp_all)]
            simp only [List.head?_cons]
            rw [if_neg hlow, sentSpec_replicate_append,
              sentSpec_cons_ne c t (by simp_all), ih.1]

/-- C6 counterexample: the source regex `(^|\. *)([a-z])` matches a period
followed by *zero* or more spaces, so `"a.b"` becomes `"A.B"`, while the
claimed period-space boundary rule leaves `"A.b"`. -/
theorem c6_sentence_counterexample :
    CaseConverter.convert "a.b" "sentence" = "A.B" ∧
    Spec.claimSentence "a.b" = "A.b" ∧
    CaseConverter.convert "a.b" "sentence" ≠ Spec.claimSentence "a.b" := by
  decide

/-- C6 (amended): `convert(text, 'sentence')` lowercases the whole string
and capitalizes exactly the first character (when a lower-case letter) and
each lower-case letter following a period and zero or more spaces. -/
theorem c6_sentence_case (text : String) :
    CaseConverter.convert text "sentence" = Spec.amendedSentence text := by
  unfold CaseConverter.convert Spec.amendedSentence
  by_cases h : text = ""
  · subst h
    rfl
  · rw [if_neg h, if_neg (by decide), if_neg (by decide), if_neg (by decide), if_pos rfl]
    unfold CaseConverter.sentenceCase
    cases text.data.map Char.toLower with
    | nil => rfl
    | cons c t =>
      by_cases hlow : isLowerAZ c = true
      · simp only [hlow, if_pos]
        rw [(sentAux_eq t).1]
      · simp only [hlow]
        rw [if_neg (by simp_all), if_neg (by simp_all), (sentAux_eq (c :: t)).1]

/-! ### C5: `stripFormatting` refinement -/

theorem collapseST_head_ST :
    ∀ (t : List Char) (b : Char), isST b = true → ∃ r, collapseST (b :: t) = ' ' :: r := by
  intro t
  induction t with
  | nil =>
    intro b hb
    exact ⟨[], by simp [collapseST, hb]⟩
  | cons c t2 ih =>
    intro b hb
    by_cases hc : isST c = true
    · rcases ih c hc with ⟨r, hr⟩
      refine ⟨r, ?_⟩
      rw [show collapseST (b :: c :: t2) = collapseST (c :: t2) from by
        simp [collapseST, hb, hc]]
      exact hr
    · refine ⟨collapseST (c :: t2), ?_⟩
      simp [collapseST, hb, hc]

theorem collapseST_head_nonST (t : List Char) (b : Char) (hb : isST b = false) :
    ∃ r, collapseST (b :: t) = b :: r := by
  cases t with
  | nil => exact ⟨[], by simp [collapseST, hb]⟩
  | cons c t2 =>
    refine ⟨collapseST (c :: t2), ?_⟩
    simp [collapseST, hb]

theorem collapseSpacesTabs_eq (l : List Char) :
    Spec.collapseSpacesTabs l = collapseST l := by
  induction l using collapseST.induct with
  | case1 => rfl
  | case2 a =>
    by_cases ha : isST a = true <;>
      simp [Spec.collapseSpacesTabs, collapseST, ha]
  | case3 a b t h ih =>
    rw [Bool.and_eq_true] at h
    show (if isST a = true
      then (if (Spec.collapseSpacesTabs (b :: t)).head? = some ' '
        then Spec.collapseSpacesTabs (b :: t)
        else ' ' :: Spec.collapseSpacesTabs (b :: t))
      else a :: Spec.collapseSpacesTabs (b :: t)) = _
    rw [ih, if_pos h.1]
    rcases collapseST_head_ST t b h.2 with ⟨r, hr⟩
    rw [hr, List.head?_cons, if_pos rfl,
      show collapseST (a :: b :: t) = collapseST (b :: t) from by
        simp [collapseST, h.1, h.2],
      hr]
  | case4 a b t h ih =>
    show (if isST a = true
      then (if (Spec.collapseSpacesTabs (b :: t)).head? = some ' '
        then Spec.collapseSpacesTabs (b :: t)
        else ' ' :: Spec.collapseSpacesTabs (b :: t))
      else a :: Spec.collapseSpacesTabs (b :: t)) = _
    rw [ih,
      show collapseST (a :: b :: t) = (if isST a then ' ' else a) :: collapseST (b :: t)
        from by simp only [collapseST, if_neg h]]
    by_cases ha : isST a = true
    · have hb : isST b = false := by
        cases hbb : isST b
        · rfl
        · exact absurd (by rw [ha, hbb]; rfl) h
      rcases collapseST_head_nonST t b hb with ⟨r, hr⟩
      rw [if_pos ha, if_pos ha, hr, List.head?_cons,
        if_neg (show ¬(some b = some ' ') from by
          intro hcon
          have hbsp : b = ' ' := by simpa using hcon
          rw [hbsp] at hb
          simp [isST] at hb)]
    · rw [if_neg ha, if_neg ha]

theorem rmTouchAfter_nil : Spec.rmTouchAfter [] = [] := by
  rw [Spec.rmTouchAfter]

theorem rmTouchAfter_cons_nl (t : List Char) :
    Spec.rmTouchAfter ('\n' :: t) = '\n' :: Spec.rmTouchAfter (t.dropWhile isST) := by
  rw [Spec.rmTouchAfter]
  simp

theorem rmTouchAfter_cons_ne (c : Char) (t : List Char) (h : (c == '\n') = false) :
    Spec.rmTouchAfter (c :: t) = c :: Spec.rmTouchAfter t := by
  rw [Spec.rmTouchAfter]
  simp [h]

theorem rmAfterNLAux_eq (l : List Char) :
    rmAfterNLAux false l = Spec.rmTouchAfter l ∧
    rmAfterNLAux true l = Spec.rmTouchAfter (l.dropWhile isST) := by
  induction l with
  | nil => exact ⟨rmTouchAfter_nil.symm, rmTouchAfter_nil.symm⟩
  | cons c t ih =>
    have h1 : rmAfterNLAux false (c :: t) = Spec.rmTouchAfter (c :: t) := by
      show (if (false && isST c) = true then rmAfterNLAux true t
        else if (c == '\n') = true then '\n' :: rmAfterNLAux true t
        else c :: rmAfterNLAux false t) = _
      rw [if_neg (by simp)]
      by_cases hc : (c == '\n') = true
      · have hc2 : c = '\n' := by simpa using hc
        subst hc2
        rw [if_pos hc, rmTouchAfter_cons_nl, ih.2]
      · rw [if_neg hc, rmTouchAfter_cons_ne c t (by simpa using hc), ih.1]
    refine ⟨h1, ?_⟩
    by_cases hST : isST c = true
    · show (if (true && isST c) = true then rmAfterNLAux true t
        else if (c == '\n') = true then '\n' :: rmAfterNLAux true t
        else c :: rmAfterNLAux false t) = _
      rw [if_pos (by simp [hST]), List.dropWhile_cons_of_pos hST]
      exact ih.2
    · rw [List.dropWhile_cons_of_neg hST]
      show (if (true && isST c) = true then rmAfterNLAux true t
        else if (c == '\n') = true then '\n' :: rmAfterNLAux true t
        else c :: rmAfterNLAux false t) = _
      rw [if_neg (by simp [hST])]
      by_cases hc : (c == '\n') = true
      · have hc2 : c = '\n' := by simpa using hc
        subst hc2
        rw [if_pos hc, rmTouchAfter_cons_nl, ih.2]
      · rw [if_neg hc, rmTouchAfter_cons_ne c t (by simpa using hc), ih.1]

theorem rmTouchAfter_eq (l : List Char) : Spec.rmTouchAfter l = rmAfterNL l :=
  (rmAfterNLAux_eq l).1.symm

theorem takeWhile_all_ST {r : List Char} (h : ∀ c ∈ r, isST c = true) :
    r.takeWhile isST = r := by
  induction r with
  | nil => rfl
  | cons a t ih =>
    rw [List.takeWhile_cons_of_pos (h a (List.mem_cons_self a t)),
      ih (fun c hc => h c (List.mem_cons_of_mem a hc))]

theorem dropWhile_all_ST {r : List Char} (h : ∀ c ∈ r, isST c = true) :
    r.dropWhile isST = [] := by
  induction r with
  | nil => rfl
  | cons a t ih =>
    rw [List.dropWhile_cons_of_pos (h a (List.mem_cons_self a t)),
      ih (fun c hc => h c (List.mem_cons_of_mem a hc))]

theorem dropWhile_ST_append {r : List Char} (hr : ∀ c ∈ r, isST c = true) {d : Char}
    (hd : isST d = false) (t : List Char) :
    (r ++ d :: t).dropWhile isST = d :: t ∧ (r ++ d :: t).takeWhile isST = r := by
  induction r with
  | nil =>
    constructor
    · rw [List.nil_append, List.dropWhile_cons_of_neg (by simp [hd])]
    · rw [List.nil_append, List.takeWhile_cons_of_neg (by simp [hd])]
  | cons a r2 ih =>
    have ha := hr a (List.mem_cons_self a r2)
    have ih2 := ih (fun c hc => hr c (List.mem_cons_of_mem a hc))
    constructor
    · rw [List.cons_append, List.dropWhile_cons_of_pos ha]
      exact ih2.1
    · rw [List.cons_append, List.takeWhile_cons_of_pos ha, ih2.2]

theorem rmTouchBefore_nil : Spec.rmTouchBefore [] = [] := by
  rw [Spec.rmTouchBefore]

theorem rmTouchBefore_cons_nonST {c : Char} (t : List Char) (h : isST c = false) :
    Spec.rmTouchBefore (c :: t) = c :: Spec.rmTouchBefore t := by
  rw [Spec.rmTouchBefore]
  simp [h]

theorem rmTouchBefore_all_ST (r : List Char) (h : ∀ c ∈ r, isST c = true) :
    Spec.rmTouchBefore r = r := by
  cases r with
  | nil => exact rmTouchBefore_nil
  | cons p rest =>
    have hrest : ∀ c ∈ rest, isST c = true := fun c hc => h c (List.mem_cons_of_mem p hc)
    rw [Spec.rmTouchBefore, if_pos (h p (List.mem_cons_self p rest)),
      if_neg (by rw [dropWhile_all_ST hrest]; simp),
      dropWhile_all_ST hrest, takeWhile_all_ST hrest, rmTouchBefore_nil, List.append_nil]

theorem rmBeforeNLAux_eq (l : List Char) :
    ∀ pend : List Char, (∀ c ∈ pend, isST c = true) →
      rmBeforeNLAux pend l = Spec.rmTouchBefore (pend.reverse ++ l) := by
  induction l with
  | nil =>
    intro pend hp
    show pend.reverse = _
    rw [List.append_nil,
      rmTouchBefore_all_ST pend.reverse (fun c hc => hp c (List.mem_reverse.mp hc))]
  | cons c t ih =>
    intro pend hp
    show (if isST c = true then rmBeforeNLAux (c :: pend) t
      else if (c == '\n') = true then '\n' :: rmBeforeNLAux [] t
      else pend.reverse ++ c :: rmBeforeNLAux [] t) = _
    by_cases hST : isST c = true
    · rw [if_pos hST, ih (c :: pend) (by
        intro x hx
        rcases List.mem_cons.mp hx with rfl | hx2
        · exact hST
        · exact hp x hx2)]
      rw [List.reverse_cons, List.append_assoc, List.singleton_append]
    · rw [if_neg hST]
      by_cases hNL : (c == '\n') = true
      · have hc2 : c = '\n' := by simpa using hNL
        subst hc2
        rw [if_pos hNL, ih [] (by simp)]
        simp only [List.reverse_nil, List.nil_append]
        cases hpr : pend.reverse with
        | nil =>
          simp only [List.nil_append]
          rw [rmTouchBefore_cons_nonST t (by rfl)]
        | cons p0 rest =>
          have hall : ∀ x ∈ p0 :: rest, isST x = true := by
            rw [← hpr]
            intro x hx
            exact hp x (List.mem_reverse.mp hx)
          have hrest : ∀ x ∈ rest, isST x = true :=
            fun x hx => hall x (List.mem_cons_of_mem p0 hx)
          have hdrop := dropWhile_ST_append hrest (show isST '\n' = false from rfl) t
          conv_rhs => rw [List.cons_append, Spec.rmTouchBefore]
          rw [if_pos (hall p0 (List.mem_cons_self p0 rest)),
            if_pos (by rw [hdrop.1]; rfl), hdrop.1,
            rmTouchBefore_cons_nonST t (by rfl)]
      · rw [if_neg hNL, ih [] (by simp)]
        simp only [List.reverse_nil, List.nil_append]
        have hcnl : isST c = false := by simpa using hST
        cases hpr : pend.reverse with
        | nil =>
          simp only [List.nil_append]
          rw [rmTouchBefore_cons_nonST t hcnl]
        | cons p0 rest =>
          have hall : ∀ x ∈ p0 :: rest, isST x = true := by
            rw [← hpr]
            intro x hx
            exact hp x (List.mem_reverse.mp hx)
          have hrest : ∀ x ∈ rest, isST x = true :=
            fun x hx => hall x (List.mem_cons_of_mem p0 hx)
          have hdrop := dropWhile_ST_append hrest hcnl t
          conv_rhs => rw [List.cons_append, Spec.rmTouchBefore]
          rw [if_pos (hall p0 (List.mem_cons_self p0 rest)),
            if_neg (by
              rw [hdrop.1]
              intro hcon
              have : c = '\n' := by simpa using hcon
              subst this
              simp at hNL),
            hdrop.1, hdrop.2, rmTouchBefore_cons_nonST t hcnl, List.cons_append]

theorem rmTouchBefore_eq (l : List Char) : Spec.rmTouchBefore l = rmBeforeNL l := by
  rw [rmBeforeNL, rmBeforeNLAux_eq l [] (by simp), List.reverse_nil, List.nil_append]

theorem capBlankLines_cons (x : Char) (rest : List Char) :
    Spec.capBlankLines (x :: rest) =
      (if x == '\n'
        then (if (Spec.capBlankLines rest).take 2 = ['\n', '\n']
          then Spec.capBlankLines rest
          else x :: Spec.capBlankLines rest)
        else x :: Spec.capBlankLines rest) := rfl

theorem collapseNL3_head (l : List Char) : (collapseNL3 l).head? = l.head? := by
  induction l using collapseNL3.induct with
  | case1 a b c t h ih =>
    rw [show collapseNL3 (a :: b :: c :: t) = collapseNL3 (b :: c :: t) from by
      simp only [collapseNL3, h, if_true]]
    rw [ih]
    rcases Bool.and_eq_true_iff.mp h with ⟨hab, -⟩
    rcases Bool.and_eq_true_iff.mp hab with ⟨ha, hb⟩
    have ha2 : a = '\n' := by simpa using ha
    have hb2 : b = '\n' := by simpa using hb
    rw [ha2, hb2]
    rfl
  | case2 a b c t h ih =>
    rw [show collapseNL3 (a :: b :: c :: t) = a :: collapseNL3 (b :: c :: t) from by
      simp only [collapseNL3, h, if_false, Bool.false_eq_true]]
    rfl
  | case3 l h =>
    match l with
    | [] => rfl
    | [a] => rfl
    | [a, b] => rfl
    | a :: b :: c :: t => exact absurd rfl (h a b c t)

theorem collapseNL3_nlnl (t : List Char) :
    ∃ r, collapseNL3 ('\n' :: '\n' :: t) = '\n' :: '\n' :: r := by
  induction t with
  | nil => exact ⟨[], rfl⟩
  | cons c t2 ih =>
    by_cases hc : (c == '\n') = true
    · have hc2 : c = '\n' := by simpa using hc
      subst hc2
      rcases ih with ⟨r, hr⟩
      exact ⟨r, by
        rw [show collapseNL3 ('\n' :: '\n' :: '\n' :: t2) = collapseNL3 ('\n' :: '\n' :: t2)
          from by simp only [collapseNL3]; rfl]
        exact hr⟩
    · cases t2 with
      | nil =>
        refine ⟨[c], ?_⟩
        rw [show collapseNL3 ['\n', '\n', c] = '\n' :: collapseNL3 ['\n', c] from by
          simp [collapseNL3, hc]]
        rfl
      | cons d t3 =>
        refine ⟨collapseNL3 (c :: d :: t3), ?_⟩
        rw [show collapseNL3 ('\n' :: '\n' :: c :: d :: t3)
            = '\n' :: collapseNL3 ('\n' :: c :: d :: t3) from by
          simp [collapseNL3, hc]]
        rw [show collapseNL3 ('\n' :: c :: d :: t3) = '\n' :: collapseNL3 (c :: d :: t3) from by
          simp [collapseNL3, hc]]

theorem head?_of_take_two {X : List Char} (h : X.take 2 = ['\n', '\n']) :
    X.head? = some '\n' := by
  cases X with
  | nil => simp at h
  | cons a Y =>
    simp only [List.take, List.cons.injEq] at h
    rw [h.1]
    rfl

theorem take_one_of_head? {X : List Char} {c : Char} (h : X.head? = some c) :
    X.take 1 = [c] := by
  cases X with
  | nil => simp at h
  | cons a Y =>
    simp only [List.head?_cons, Option.some.injEq] at h
    rw [h]
    rfl

theorem capBlankLines_eq (l : List Char) : Spec.capBlankLines l = collapseNL3 l := by
  induction l using collapseNL3.induct with
  | case1 a b c t h ih =>
    rcases Bool.and_eq_true_iff.mp h with ⟨hab, hcc⟩
    rcases Bool.and_eq_true_iff.mp hab with ⟨ha, hb⟩
    have ha2 : a = '\n' := by simpa using ha
    have hb2 : b = '\n' := by simpa using hb
    have hc2 : c = '\n' := by simpa using hcc
    subst ha2; subst hb2; subst hc2
    rw [capBlankLines_cons, ih]
    rcases collapseNL3_nlnl t with ⟨r, hr⟩
    rw [hr, if_pos ha, if_pos (show List.take 2 ('\n' :: '\n' :: r) = ['\n', '\n'] from rfl),
      show collapseNL3 ('\n' :: '\n' :: '\n' :: t) = collapseNL3 ('\n' :: '\n' :: t)
        from by simp only [collapseNL3]; rfl, hr]
  | case2 a b c t h ih =>
    rw [capBlankLines_cons, ih,
      show collapseNL3 (a :: b :: c :: t) = a :: collapseNL3 (b :: c :: t) from by
        simp only [collapseNL3, h, if_false, Bool.false_eq_true]]
    by_cases ha : (a == '\n') = true
    · have ha2 : a = '\n' := by simpa using ha
      subst ha2
      rw [if_pos ha, if_neg ?_]
      intro htake
      have hb2 : b = '\n' := by
        have := head?_of_take_two htake
        rw [collapseNL3_head] at this
        simpa using this
      subst hb2
      have hc2 : ¬(c == '\n') = true := by
        intro hcc
        apply h
        rw [hcc]
        rfl
      have hshape : collapseNL3 ('\n' :: c :: t) = '\n' :: collapseNL3 (c :: t) := by
        cases t with
        | nil => simp [collapseNL3, hc2]
        | cons d t3 => simp [collapseNL3, hc2]
      rw [hshape] at htake
      have : (collapseNL3 (c :: t)).take 1 = ['\n'] := by
        simpa [List.take] using htake
      rw [take_one_of_head? (show (collapseNL3 (c :: t)).head? = some c from by
        rw [collapseNL3_head]; rfl)] at this
      have : c = '\n' := by simpa using this
      exact hc2 (by simp [this])
    · rw [if_neg ha]
  | case3 l h =>
    match l with
    | [] => rfl
    | [a] =>
      rw [capBlankLines_cons]
      by_cases ha : (a == '\n') = true
      · rw [if_pos ha, if_neg (by simp [Spec.capBlankLines])]
        rfl
      · rw [if_neg ha]
        rfl
    | [a, b] =>
      have hb : Spec.capBlankLines [b] = [b] := by
        rw [capBlankLines_cons]
        by_cases hbb : (b == '\n') = true
        · rw [if_pos hbb, if_neg (by simp [Spec.capBlankLines])]
          rfl
        · rw [if_neg hbb]
          rfl
      rw [capBlankLines_cons, hb]
      by_cases ha : (a == '\n') = true
      · rw [if_pos ha, if_neg (by
          intro hcon
          simp at hcon)]
        rfl
      · rw [if_neg ha]
        rfl
    | a :: b :: c :: t => exact absurd rfl (h a b c t)

/-- C5: `stripFormatting` (over any entity decoder) equals the
specification pipeline — strip tags, decode, collapse space/tab runs,
remove spaces/tabs touching a line break, cap line-break runs at two,
trim — and on `"<b>Hello</b>   world"` (no entities) yields
`"Hello world"`. -/
theorem c5_strip_formatting :
    (∀ (decode : String → String) (text : String),
      TextFormatter.stripFormatting decode text = Spec.stripFormatting decode text) ∧
    (∀ decode : String → String, decode "Hello   world" = "Hello   world" →
      TextFormatter.stripFormatting decode "<b>Hello</b>   world" = "Hello world") := by
  constructor
  · intro dec text
    unfold TextFormatter.stripFormatting Spec.stripFormatting
    by_cases h : text = ""
    · rw [if_pos h, if_pos h]
    · rw [if_neg h, if_neg h, collapseSpacesTabs_eq, rmTouchAfter_eq, rmTouchBefore_eq,
        capBlankLines_eq]
  · intro dec hdec
    have h1 : String.mk (stripTags ("<b>Hello</b>   world" : String).data)
        = "Hello   world" := by decide
    unfold TextFormatter.stripFormatting
    rw [if_neg (by decide)]
    simp only [h1, hdec]
    decide

/-- Witness for C5 with the identity decoder. -/
theorem c5_strip_formatting_witness :
    TextFormatter.stripFormatting id "<b>Hello</b>   world" = "Hello world" ∧
    TextFormatter.stripFormatting id "abc" = Spec.stripFormatting id "abc" :=
  ⟨c5_strip_formatting.2 id rfl, c5_strip_formatting.1 id "abc"⟩

/-! ### C9: invariants of the `stripFormatting` output -/

theorem noPairB_tail {p q : Char → Bool} {x : Char} {rest : List Char}
    (h : noPairB p q (x :: rest) = true) : noPairB p q rest = true := by
  cases rest with
  | nil => rfl
  | cons y t => exact (Bool.and_eq_true_iff.mp h).2

theorem noPairB_head {p q : Char → Bool} {x y : Char} {t : List Char}
    (h : noPairB p q (x :: y :: t) = true) : (p x && q y) = false := by
  have h1 := (Bool.and_eq_true_iff.mp h).1
  rwa [Bool.not_eq_true'] at h1

theorem noPairB_cons {p q : Char → Bool} {x : Char} {rest : List Char}
    (hhead : ∀ y, rest.head? = some y → (p x && q y) = false)
    (htail : noPairB p q rest = true) : noPairB p q (x :: rest) = true := by
  cases rest with
  | nil => rfl
  | cons y t =>
    show (!(p x && q y) && noPairB p q (y :: t)) = true
    rw [hhead y rfl, htail]
    rfl

theorem noPairB_append {p q : Char → Bool} (r s : List Char)
    (hr : noPairB p q r = true) (hs : noPairB p q s = true)
    (hj : ∀ x y, r.getLast? = some x → s.head? = some y → (p x && q y) = false) :
    noPairB p q (r ++ s) = true := by
  induction r with
  | nil => simpa using hs
  | cons a r2 ih =>
    rw [List.cons_append]
    cases r2 with
    | nil =>
      refine noPairB_cons (fun y hy => hj a y rfl (by simpa using hy)) (by simpa using hs)
    | cons b r3 =>
      refine noPairB_cons (fun y hy => ?_) ?_
      · have hby : b = y := by simpa using hy
        subst hby
        exact noPairB_head hr
      · exact ih (noPairB_tail hr) (fun x y hx hy => hj x y (by
          rw [List.getLast?_cons_cons]
          exact hx) hy)

theorem noPairB_front {p q : Char → Bool} :
    ∀ (r s : List Char), noPairB p q (r ++ s) = true → noPairB p q r = true := by
  intro r
  induction r with
  | nil => intro s _; rfl
  | cons a r2 ih =>
    intro s h
    rw [List.cons_append] at h
    cases r2 with
    | nil => rfl
    | cons b r3 =>
      refine noPairB_cons (fun y hy => ?_) (ih s (noPairB_tail h))
      have hby : b = y := by simpa using hy
      subst hby
      rw [List.cons_append] at h
      exact noPairB_head h

theorem noPairB_suffix {p q : Char → Bool} :
    ∀ (r s : List Char), noPairB p q (r ++ s) = true → noPairB p q s = true := by
  intro r
  induction r with
  | nil => intro s h; simpa using h
  | cons a r2 ih => intro s h; exact ih s (noPairB_tail h)

theorem noPairB_mono {p q p2 q2 : Char → Bool}
    (hp : ∀ a, p2 a = true → p a = true) (hq : ∀ a, q2 a = true → q a = true) :
    ∀ l, noPairB p q l = true → noPairB p2 q2 l = true := by
  intro l
  induction l with
  | nil => intro h; rfl
  | cons a t ih =>
    intro h
    refine noPairB_cons (fun y hy => ?_) (ih (noPairB_tail h))
    cases t with
    | nil => simp at hy
    | cons b t2 =>
      have hyy : b = y := by simpa using hy
      subst hyy
      have h1 := noPairB_head h
      cases h2 : p2 a
      · simp [h2]
      · cases h3 : q2 b
        · simp [h3]
        · rw [hp a h2, hq b h3] at h1
          simp at h1

theorem noTripleNLB_tail {x : Char} {rest : List Char}
    (h : noTripleNLB (x :: rest) = true) : noTripleNLB rest = true := by
  cases rest with
  | nil => rfl
  | cons y t =>
    cases t with
    | nil => rfl
    | cons z t2 => exact (Bool.and_eq_true_iff.mp h).2

theorem noTripleNLB_head {x y z : Char} {t : List Char}
    (h : noTripleNLB (x :: y :: z :: t) = true) :
    (x == '\n' && y == '\n' && z == '\n') = false := by
  have h1 := (Bool.and_eq_true_iff.mp h).1
  rwa [Bool.not_eq_true'] at h1

theorem noTripleNLB_cons {x : Char} {rest : List Char}
    (hhead : ∀ y z t2, rest = y :: z :: t2 → (x == '\n' && y == '\n' && z == '\n') = false)
    (htail : noTripleNLB rest = true) : noTripleNLB (x :: rest) = true := by
  cases rest with
  | nil => rfl
  | cons y t =>
    cases t with
    | nil => rfl
    | cons z t2 =>
      show (!(x == '\n' && y == '\n' && z == '\n') && noTripleNLB (y :: z :: t2)) = true
      rw [hhead y z t2 rfl, htail]
      rfl

theorem noTripleNLB_front :
    ∀ (r s : List Char), noTripleNLB (r ++ s) = true → noTripleNLB r = true := by
  intro r
  induction r with
  | nil => intro s _; rfl
  | cons a r2 ih =>
    intro s h
    rw [List.cons_append] at h
    refine noTripleNLB_cons (fun y z t2 ht => ?_) (ih s (noTripleNLB_tail h))
    subst ht
    rw [List.cons_append, List.cons_append] at h
    exact noTripleNLB_head h

theorem noTripleNLB_suffix :
    ∀ (r s : List Char), noTripleNLB (r ++ s) = true → noTripleNLB s = true := by
  intro r
  induction r with
  | nil => intro s h; simpa using h
  | cons a r2 ih => intro s h; exact ih s (noTripleNLB_tail h)

theorem isST_ne_nl {y : Char} (h : isST y = true) : (y == '\n') = false := by
  rcases Bool.or_eq_true_iff.mp h with h1 | h1
  · have h2 : y = ' ' := by simpa using h1
    subst h2
    rfl
  · have h2 : y = '\t' := by simpa using h1
    subst h2
    rfl

theorem noPair_allST_sn {r : List Char} (hr : ∀ x ∈ r, isST x = true) :
    noPairB isST (· == '\n') r = true := by
  induction r with
  | nil => rfl
  | cons a r2 ih =>
    refine noPairB_cons (fun y hy => ?_)
      (ih (fun x hx => hr x (List.mem_cons_of_mem a hx)))
    have hy2 : y ∈ r2 := by
      cases r2 with
      | nil => simp at hy
      | cons b r3 =>
        have : b = y := by simpa using hy
        subst this
        exact List.mem_cons_self b r3
    rw [isST_ne_nl (hr y (List.mem_cons_of_mem a hy2))]
    simp

theorem noPair_allST_ns {r : List Char} (hr : ∀ x ∈ r, isST x = true) :
    noPairB (· == '\n') isST r = true := by
  induction r with
  | nil => rfl
  | cons a r2 ih =>
    refine noPairB_cons (fun y hy => ?_)
      (ih (fun x hx => hr x (List.mem_cons_of_mem a hx)))
    rw [show ((a == '\n') : Bool) = false from
      isST_ne_nl (hr a (List.mem_cons_self a r2))]
    rfl

theorem collapseST_noPair_ss (l : List Char) :
    noPairB isST isST (collapseST l) = true := by
  induction l using collapseST.induct with
  | case1 => rfl
  | case2 a => rfl
  | case3 a b t h ih =>
    rw [show collapseST (a :: b :: t) = collapseST (b :: t) from by
      simp only [collapseST, h, if_true]]
    exact ih
  | case4 a b t h ih =>
    rw [show collapseST (a :: b :: t) = (if isST a then ' ' else a) :: collapseST (b :: t)
      from by simp only [collapseST, h, if_false, Bool.false_eq_true]]
    refine noPairB_cons (fun y hy => ?_) ih
    by_cases hb : isST b = true
    · have ha : isST a = false := by
        cases haa : isST a
        · rfl
        · exact absurd (by rw [haa, hb]; rfl) h
      rw [if_neg (by simp [ha]), ha]
      rfl
    · rcases collapseST_head_nonST t b (by simpa using hb) with ⟨r, hr⟩
      rw [hr] at hy
      have : b = y := by simpa using hy
      subst this
      rw [show isST b = false from by simpa using hb]
      simp

theorem rmAfter_head (l : List Char) : (rmAfterNLAux false l).head? = l.head? := by
  cases l with
  | nil => rfl
  | cons c t =>
    show (if (false && isST c) = true then rmAfterNLAux true t
      else if (c == '\n') = true then '\n' :: rmAfterNLAux true t
      else c :: rmAfterNLAux false t).head? = _
    rw [if_neg (by simp)]
    by_cases hc : (c == '\n') = true
    · have hc2 : c = '\n' := by simpa using hc
      subst hc2
      rw [if_pos hc]
      rfl
    · rw [if_neg hc]
      rfl

theorem rmAfter_estab (l : List Char) :
    (∀ b, noPairB (· == '\n') isST (rmAfterNLAux b l) = true) ∧
    (∀ y, (rmAfterNLAux true l).head? = some y → isST y = false) := by
  induction l with
  | nil =>
    refine ⟨fun b => rfl, fun y hy => ?_⟩
    simp [rmAfterNLAux] at hy
  | cons c t ih =>
    have hstep : ∀ b, rmAfterNLAux b (c :: t) =
        (if (b && isST c) = true then rmAfterNLAux true t
        else if (c == '\n') = true then '\n' :: rmAfterNLAux true t
        else c :: rmAfterNLAux false t) := fun b => rfl
    have hhead : ∀ y, (rmAfterNLAux true (c :: t)).head? = some y → isST y = false := by
      intro y hy
      rw [hstep true] at hy
      by_cases hST : isST c = true
      · rw [if_pos (by simp [hST])] at hy
        exact ih.2 y hy
      · rw [if_neg (by simp [hST])] at hy
        by_cases hc : (c == '\n') = true
        · rw [if_pos hc] at hy
          have : '\n' = y := by simpa using hy
          subst this
          rfl
        · rw [if_neg hc] at hy
          have : c = y := by simpa using hy
          subst this
          simpa using hST
    refine ⟨fun b => ?_, hhead⟩
    rw [hstep b]
    by_cases hbST : (b && isST c) = true
    · rw [if_pos hbST]
      exact ih.1 true
    · rw [if_neg hbST]
      by_cases hc : (c == '\n') = true
      · rw [if_pos hc]
        refine noPairB_cons (fun y hy => ?_) (ih.1 true)
        rw [ih.2 y hy]
        simp
      · rw [if_neg hc]
        refine noPairB_cons (fun y hy => ?_) (ih.1 false)
        rw [show ((c == '\n') : Bool) = false from by simpa using hc]
        rfl

theorem rmAfter_pres_ss :
    ∀ l : List Char, noPairB isST isST l = true →
      ∀ b, noPairB isST isST (rmAfterNLAux b l) = true := by
  intro l
  induction l with
  | nil => intro _ b; rfl
  | cons c t ih =>
    intro h b
    have hstep : rmAfterNLAux b (c :: t) =
        (if (b && isST c) = true then rmAfterNLAux true t
        else if (c == '\n') = true then '\n' :: rmAfterNLAux true t
        else c :: rmAfterNLAux false t) := rfl
    rw [hstep]
    by_cases hbST : (b && isST c) = true
    · rw [if_pos hbST]
      exact ih (noPairB_tail h) true
    · rw [if_neg hbST]
      by_cases hc : (c == '\n') = true
      · rw [if_pos hc]
        refine noPairB_cons (fun y hy => ?_) (ih (noPairB_tail h) true)
        rw [show isST '\n' = false from rfl]
        rfl
      · rw [if_neg hc]
        refine noPairB_cons (fun y hy => ?_) (ih (noPairB_tail h) false)
        rw [rmAfter_head] at hy
        cases t with
        | nil => simp at hy
        | cons d t2 =>
          have hdy : d = y := by simpa using hy
          subst hdy
          exact noPairB_head h

theorem rmBeforeNLAux_step (pend : List Char) (c : Char) (t : List Char) :
    rmBeforeNLAux pend (c :: t) =
      (if isST c = true then rmBeforeNLAux (c :: pend) t
      else if (c == '\n') = true then '\n' :: rmBeforeNLAux [] t
      else pend.reverse ++ c :: rmBeforeNLAux [] t) := rfl

theorem rmBefore_head (t : List Char) (hh : ∀ y, t.head? = some y → isST y = false) :
    ∀ y, (rmBeforeNLAux [] t).head? = some y → isST y = false := by
  cases t with
  | nil =>
    intro y hy
    simp [rmBeforeNLAux] at hy
  | cons d t2 =>
    intro y hy
    have hd := hh d rfl
    rw [rmBeforeNLAux_step, if_neg (by simp [hd])] at hy
    by_cases hdn : (d == '\n') = true
    · rw [if_pos hdn] at hy
      have h2 : '\n' = y := by simpa using hy
      subst h2
      rfl
    · rw [if_neg hdn] at hy
      have h2 : d = y := by simpa using hy
      subst h2
      exact hd

theorem rmBefore_estab_sn :
    ∀ (l pend : List Char), (∀ x ∈ pend, isST x = true) →
      noPairB isST (· == '\n') (rmBeforeNLAux pend l) = true := by
  intro l
  induction l with
  | nil =>
    intro pend hp
    exact noPair_allST_sn (fun x hx => hp x (List.mem_reverse.mp hx))
  | cons c t ih =>
    intro pend hp
    rw [rmBeforeNLAux_step]
    by_cases hST : isST c = true
    · rw [if_pos hST]
      refine ih (c :: pend) (fun x hx => ?_)
      rcases List.mem_cons.mp hx with rfl | hx2
      · exact hST
      · exact hp x hx2
    · rw [if_neg hST]
      by_cases hc : (c == '\n') = true
      · rw [if_pos hc]
        refine noPairB_cons (fun y hy => ?_) (ih [] (by simp))
        rw [show isST '\n' = false from rfl]
        rfl
      · rw [if_neg hc]
        refine noPairB_append _ _
          (noPair_allST_sn (fun x hx => hp x (List.mem_reverse.mp hx)))
          (noPairB_cons (fun y hy => ?_) (ih [] (by simp)))
          (fun x y hx hy => ?_)
        · rw [show isST c = false from by simpa using hST]
          rfl
        · have h2 : c = y := by simpa using hy
          subst h2
          rw [show ((c == '\n') : Bool) = false from by simpa using hc]
          simp

theorem mem_of_getLast? : ∀ {l : List Char} {x : Char}, l.getLast? = some x → x ∈ l := by
  intro l
  induction l with
  | nil => intro x h; simp at h
  | cons a t ih =>
    intro x h
    cases t with
    | nil =>
      have h2 : a = x := by simpa using h
      subst h2
      exact List.mem_cons_self a []
    | cons b t2 =>
      rw [List.getLast?_cons_cons] at h
      exact List.mem_cons_of_mem a (ih h)

theorem rmBefore_pres_ns :
    ∀ (l pend : List Char), (∀ x ∈ pend, isST x = true) →
      noPairB (· == '\n') isST l = true →
      noPairB (· == '\n') isST (rmBeforeNLAux pend l) = true := by
  intro l
  induction l with
  | nil =>
    intro pend hp _
    exact noPair_allST_ns (fun x hx => hp x (List.mem_reverse.mp hx))
  | cons c t ih =>
    intro pend hp h
    rw [rmBeforeNLAux_step]
    by_cases hST : isST c = true
    · rw [if_pos hST]
      refine ih (c :: pend) (fun x hx => ?_) (noPairB_tail h)
      rcases List.mem_cons.mp hx with rfl | hx2
      · exact hST
      · exact hp x hx2
    · rw [if_neg hST]
      by_cases hc : (c == '\n') = true
      · rw [if_pos hc]
        have hh : ∀ z, t.head? = some z → isST z = false := by
          intro z hz
          cases t with
          | nil => simp at hz
          | cons d t2 =>
            have hdz : d = z := by simpa using hz
            subst hdz
            have h3 := noPairB_head h
            rw [hc] at h3
            simpa using h3
        refine noPairB_cons (fun y hy => ?_) (ih [] (by simp) (noPairB_tail h))
        rw [rmBefore_head t hh y hy]
        simp
      · rw [if_neg hc]
        refine noPairB_append _ _
          (noPair_allST_ns (fun x hx => hp x (List.mem_reverse.mp hx)))
          (noPairB_cons (fun y hy => ?_) (ih [] (by simp) (noPairB_tail h)))
          (fun x y hx hy => ?_)
        · rw [show ((c == '\n') : Bool) = false from by simpa using hc]
          rfl
        · rw [isST_ne_nl (hp x (List.mem_reverse.mp (mem_of_getLast? hx)))]
          rfl

theorem rmBefore_pres_ss :
    ∀ (l pend : List Char), (pend = [] ∨ ∃ p, pend = [p]) →
      (∀ x ∈ pend, isST x = true) →
      noPairB isST isST l = true →
      (pend = [] ∨ ∀ y, l.head? = some y → isST y = false) →
      noPairB isST isST (rmBeforeNLAux pend l) = true := by
  intro l
  induction l with
  | nil =>
    intro pend hs hp _ _
    rcases hs with rfl | ⟨p, rfl⟩
    · rfl
    · rfl
  | cons c t ih =>
    intro pend hs hp h hj
    rw [rmBeforeNLAux_step]
    by_cases hST : isST c = true
    · rw [if_pos hST]
      rcases hj with rfl | hhc
      · refine ih [c] (Or.inr ⟨c, rfl⟩) (fun x hx => ?_) (noPairB_tail h) (Or.inr ?_)
        · rcases List.mem_cons.mp hx with rfl | hx2
          · exact hST
          · simp at hx2
        · intro y hy
          cases t with
          | nil => simp at hy
          | cons d t2 =>
            have hdy : d = y := by simpa using hy
            subst hdy
            have h3 := noPairB_head h
            rw [hST] at h3
            simpa using h3
      · exact absurd (hhc c rfl) (by simp [hST])
    · rw [if_neg hST]
      by_cases hc : (c == '\n') = true
      · rw [if_pos hc]
        refine noPairB_cons (fun y hy => ?_) (ih [] (Or.inl rfl) (by simp)
          (noPairB_tail h) (Or.inl rfl))
        have hc2 : c = '\n' := by simpa using hc
        subst hc2
        rfl
      · rw [if_neg hc]
        rcases hs with rfl | ⟨p, rfl⟩
        · rw [List.reverse_nil, List.nil_append]
          refine noPairB_cons (fun y hy => ?_) (ih [] (Or.inl rfl) (by simp)
            (noPairB_tail h) (Or.inl rfl))
          rw [show isST c = false from by simpa using hST]
          rfl
        · show noPairB isST isST (p :: c :: rmBeforeNLAux [] t) = true
          refine noPairB_cons (fun y hy => ?_)
            (noPairB_cons (fun y hy => ?_) (ih [] (Or.inl rfl) (by simp)
              (noPairB_tail h) (Or.inl rfl)))
          · have hcy : c = y := by simpa using hy
            subst hcy
            rw [show isST c = false from by simpa using hST]
            simp
          · rw [show isST c = false from by simpa using hST]
            rfl

theorem collapseNL3_pres_pair {p q : Char → Bool} :
    ∀ l, noPairB p q l = true → noPairB p q (collapseNL3 l) = true := by
  intro l
  induction l using collapseNL3.induct with
  | case1 a b c t h ih =>
    intro hl
    rw [show collapseNL3 (a :: b :: c :: t) = collapseNL3 (b :: c :: t) from by
      simp only [collapseNL3, h, if_true]]
    exact ih (noPairB_tail hl)
  | case2 a b c t h ih =>
    intro hl
    rw [show collapseNL3 (a :: b :: c :: t) = a :: collapseNL3 (b :: c :: t) from by
      simp only [collapseNL3, h, if_false, Bool.false_eq_true]]
    refine noPairB_cons (fun y hy => ?_) (ih (noPairB_tail hl))
    rw [collapseNL3_head] at hy
    have hby : b = y := by simpa using hy
    subst hby
    exact noPairB_head hl
  | case3 l h =>
    intro hl
    match l with
    | [] => exact hl
    | [a] => exact hl
    | [a, b] => exact hl
    | a :: b :: c :: t => exact absurd rfl (h a b c t)

theorem collapseNL3_estab_triple : ∀ l, noTripleNLB (collapseNL3 l) = true := by
  intro l
  induction l using collapseNL3.induct with
  | case1 a b c t h ih =>
    rw [show collapseNL3 (a :: b :: c :: t) = collapseNL3 (b :: c :: t) from by
      simp only [collapseNL3, h, if_true]]
    exact ih
  | case2 a b c t h ih =>
    rw [show collapseNL3 (a :: b :: c :: t) = a :: collapseNL3 (b :: c :: t) from by
      simp only [collapseNL3, h, if_false, Bool.false_eq_true]]
    refine noTripleNLB_cons (fun y z t2 hX => ?_) ih
    by_cases han : (a == '\n') = true
    · by_cases hbn : (b == '\n') = true
      · have hcn : (c == '\n') = false := by
          cases hcc : (c == '\n')
          · rfl
          · exact absurd (by rw [han, hbn, hcc]; rfl) h
        have hbn2 : b = '\n' := by simpa using hbn
        subst hbn2
        cases t with
        | nil =>
          have hX2 : (['\n', c] : List Char) = y :: z :: t2 := hX
          have hzc : c = z := by
            have := congrArg (fun w => (List.drop 1 w).head?) hX2
            simpa using this
          subst hzc
          rw [hcn]
          simp
        | cons d t3 =>
          rw [show collapseNL3 ('\n' :: c :: d :: t3) = '\n' :: collapseNL3 (c :: d :: t3)
            from by simp [collapseNL3, hcn]] at hX
          have hzc : c = z := by
            have h2 := congrArg (fun w => (List.drop 1 w).head?) hX
            simp only [List.drop, List.head?_cons] at h2
            rw [collapseNL3_head] at h2
            simpa using h2
          subst hzc
          rw [hcn]
          simp
      · have hby : b = y := by
          have h2 := congrArg (fun w => w.head?) hX
          simp only [List.head?_cons] at h2
          rw [collapseNL3_head] at h2
          simpa using h2
        subst hby
        rw [show ((b == '\n') : Bool) = false from by simpa using hbn]
        simp
    · rw [show ((a == '\n') : Bool) = false from by simpa using han]
      rfl
  | case3 l h =>
    match l with
    | [] => rfl
    | [a] => rfl
    | [a, b] => rfl
    | a :: b :: c :: t => exact absurd rfl (h a b c t)

theorem collapseST_no_tab : ∀ l : List Char, '\t' ∉ collapseST l := by
  intro l
  induction l using collapseST.induct with
  | case1 => simp [collapseST]
  | case2 a =>
    intro hm
    by_cases ha : isST a = true
    · rw [show collapseST [a] = [' '] from by simp [collapseST, ha]] at hm
      have h2 : '\t' = ' ' := by simpa using hm
      exact absurd h2 (by decide)
    · rw [show collapseST [a] = [a] from by simp [collapseST, ha]] at hm
      have h2 : '\t' = a := by simpa using hm
      rw [← h2] at ha
      exact ha rfl
  | case3 a b t h ih =>
    rw [show collapseST (a :: b :: t) = collapseST (b :: t) from by
      simp only [collapseST, h, if_true]]
    exact ih
  | case4 a b t h ih =>
    rw [show collapseST (a :: b :: t) = (if isST a then ' ' else a) :: collapseST (b :: t)
      from by simp only [collapseST, h, if_false, Bool.false_eq_true]]
    intro hm
    rcases List.mem_cons.mp hm with h2 | h2
    · by_cases ha : isST a = true
      · rw [if_pos ha] at h2
        exact absurd h2 (by decide)
      · rw [if_neg ha] at h2
        rw [← h2] at ha
        exact ha rfl
    · exact ih h2

theorem mem_rmAfterNLAux : ∀ (l : List Char) (b : Bool) (c : Char),
    c ∈ rmAfterNLAux b l → c ∈ l := by
  intro l
  induction l with
  | nil =>
    intro b c h
    simp [rmAfterNLAux] at h
  | cons d t ih =>
    intro b c h
    have hstep : rmAfterNLAux b (d :: t) =
        (if (b && isST d) = true then rmAfterNLAux true t
        else if (d == '\n') = true then '\n' :: rmAfterNLAux true t
        else d :: rmAfterNLAux false t) := rfl
    rw [hstep] at h
    by_cases h1 : (b && isST d) = true
    · rw [if_pos h1] at h
      exact List.mem_cons_of_mem d (ih true c h)
    · rw [if_neg h1] at h
      by_cases h2 : (d == '\n') = true
      · rw [if_pos h2] at h
        rcases List.mem_cons.mp h with rfl | h3
        · rw [show d = '\n' from by simpa using h2]
          exact List.mem_cons_self _ _
        · exact List.mem_cons_of_mem d (ih true c h3)
      · rw [if_neg h2] at h
        rcases List.mem_cons.mp h with rfl | h3
        · exact List.mem_cons_self _ _
        · exact List.mem_cons_of_mem d (ih false c h3)

theorem mem_rmBeforeNLAux : ∀ (l pend : List Char) (c : Char),
    c ∈ rmBeforeNLAux pend l → c ∈ pend ∨ c ∈ l := by
  intro l
  induction l with
  | nil =>
    intro pend c h
    exact Or.inl (List.mem_reverse.mp (by simpa [rmBeforeNLAux] using h))
  | cons d t ih =>
    intro pend c h
    rw [rmBeforeNLAux_step] at h
    by_cases h1 : isST d = true
    · rw [if_pos h1] at h
      rcases ih (d :: pend) c h with h2 | h2
      · rcases List.mem_cons.mp h2 with rfl | h3
        · exact Or.inr (List.mem_cons_self _ _)
        · exact Or.inl h3
      · exact Or.inr (List.mem_cons_of_mem d h2)
    · rw [if_neg h1] at h
      by_cases h2 : (d == '\n') = true
      · rw [if_pos h2] at h
        rcases List.mem_cons.mp h with rfl | h3
        · refine Or.inr ?_
          rw [show d = '\n' from by simpa using h2]
          exact List.mem_cons_self _ _
        · rcases ih [] c h3 with h4 | h4
          · simp at h4
          · exact Or.inr (List.mem_cons_of_mem d h4)
      · rw [if_neg h2] at h
        rcases List.mem_append.mp h with h3 | h3
        · exact Or.inl (List.mem_reverse.mp h3)
        · rcases List.mem_cons.mp h3 with rfl | h4
          · exact Or.inr (List.mem_cons_self _ _)
          · rcases ih [] c h4 with h5 | h5
            · simp at h5
            · exact Or.inr (List.mem_cons_of_mem d h5)

theorem mem_collapseNL3 : ∀ (l : List Char) (c : Char), c ∈ collapseNL3 l → c ∈ l := by
  intro l
  induction l using collapseNL3.induct with
  | case1 a b c2 t h ih =>
    intro c hc
    rw [show collapseNL3 (a :: b :: c2 :: t) = collapseNL3 (b :: c2 :: t) from by
      simp only [collapseNL3, h, if_true]] at hc
    exact List.mem_cons_of_mem a (ih c hc)
  | case2 a b c2 t h ih =>
    intro c hc
    rw [show collapseNL3 (a :: b :: c2 :: t) = a :: collapseNL3 (b :: c2 :: t) from by
      simp only [collapseNL3, h, if_false, Bool.false_eq_true]] at hc
    rcases List.mem_cons.mp hc with rfl | h3
    · exact List.mem_cons_self _ _
    · exact List.mem_cons_of_mem a (ih c h3)
  | case3 l h =>
    intro c hc
    rcases l with _ | ⟨a, _ | ⟨b, _ | ⟨c2, t⟩⟩⟩
    · exact hc
    · exact hc
    · exact hc
    · exact absurd rfl (h a b c2 t)

theorem head_dropWhile_not (p : Char → Bool) :
    ∀ (l : List Char) (y : Char), (l.dropWhile p).head? = some y → p y = false := by
  intro l
  induction l with
  | nil =>
    intro y h
    simp at h
  | cons a t ih =>
    intro y h
    rw [List.dropWhile_cons] at h
    by_cases ha : p a = true
    · rw [if_pos ha] at h
      exact ih y h
    · rw [if_neg ha] at h
      have h2 : a = y := by simpa using h
      subst h2
      simpa using ha

theorem mem_dropWhile_imp (p : Char → Bool) :
    ∀ (l : List Char) (c : Char), c ∈ l.dropWhile p → c ∈ l := by
  intro l
  induction l with
  | nil =>
    intro c h
    simpa using h
  | cons a t ih =>
    intro c h
    rw [List.dropWhile_cons] at h
    by_cases ha : p a = true
    · rw [if_pos ha] at h
      exact List.mem_cons_of_mem a (ih c h)
    · rwa [if_neg ha] at h

theorem mem_trimL (l : List Char) (c : Char) (h : c ∈ trimL l) : c ∈ l := by
  simp only [trimL] at h
  exact mem_dropWhile_imp isWS l c
    (List.mem_reverse.mp (mem_dropWhile_imp isWS _ c (List.mem_reverse.mp h)))

theorem trimL_append_eq (l : List Char) :
    trimL l ++ ((l.dropWhile isWS).reverse.takeWhile isWS).reverse = l.dropWhile isWS := by
  show ((l.dropWhile isWS).reverse.dropWhile isWS).reverse ++ _ = _
  rw [← List.reverse_append, List.takeWhile_append_dropWhile, List.reverse_reverse]

theorem trimL_decomp (l : List Char) : ∃ pre suf, l = pre ++ (trimL l ++ suf) := by
  refine ⟨l.takeWhile isWS, ((l.dropWhile isWS).reverse.takeWhile isWS).reverse, ?_⟩
  rw [trimL_append_eq, List.takeWhile_append_dropWhile]

theorem trimL_head_not_WS (l : List Char) :
    ∀ y, (trimL l).head? = some y → isWS y = false := by
  intro y hy
  have h3 : (l.dropWhile isWS).head? = some y := by
    rw [← trimL_append_eq l]
    cases he : trimL l with
    | nil =>
      rw [he] at hy
      simp at hy
    | cons a t =>
      rw [he] at hy
      simpa using hy
  exact head_dropWhile_not isWS l y h3

theorem trimL_getLast_not_WS (l : List Char) :
    ∀ y, (trimL l).getLast? = some y → isWS y = false := by
  intro y hy
  have h1 : (trimL l).getLast? = ((l.dropWhile isWS).reverse.dropWhile isWS).head? :=
    List.getLast?_reverse _
  rw [h1] at hy
  exact head_dropWhile_not isWS _ y hy

theorem dropWhile_eq_self_of_head (p : Char → Bool) (l : List Char)
    (h : ∀ y, l.head? = some y → p y = false) : l.dropWhile p = l := by
  cases l with
  | nil => rfl
  | cons a t =>
    rw [List.dropWhile_cons, if_neg (by simp [h a rfl])]

theorem trimL_idem (l : List Char) : trimL (trimL l) = trimL l := by
  conv_lhs => rw [show trimL (trimL l) =
    List.reverse (List.dropWhile isWS (List.reverse (List.dropWhile isWS (trimL l)))) from rfl]
  rw [dropWhile_eq_self_of_head isWS (trimL l) (trimL_head_not_WS l)]
  rw [dropWhile_eq_self_of_head isWS (trimL l).reverse (fun y hy => by
    rw [List.head?_reverse] at hy
    exact trimL_getLast_not_WS l y hy)]
  exact List.reverse_reverse _

theorem stripChain_invariants (D : List Char) :
    '\t' ∉ trimL (collapseNL3 (rmBeforeNLAux [] (rmAfterNLAux false (collapseST D)))) ∧
    noPairB (· == ' ') (· == ' ')
      (trimL (collapseNL3 (rmBeforeNLAux [] (rmAfterNLAux false (collapseST D))))) = true ∧
    noPairB isST (· == '\n')
      (trimL (collapseNL3 (rmBeforeNLAux [] (rmAfterNLAux false (collapseST D))))) = true ∧
    noPairB (· == '\n') isST
      (trimL (collapseNL3 (rmBeforeNLAux [] (rmAfterNLAux false (collapseST D))))) = true ∧
    noTripleNLB
      (trimL (collapseNL3 (rmBeforeNLAux [] (rmAfterNLAux false (collapseST D))))) = true := by
  have A1 : noPairB isST isST (collapseST D) = true := collapseST_noPair_ss D
  have A2 : '\t' ∉ collapseST D := collapseST_no_tab D
  have B1 : noPairB (· == '\n') isST (rmAfterNLAux false (collapseST D)) = true :=
    (rmAfter_estab (collapseST D)).1 false
  have B2 : noPairB isST isST (rmAfterNLAux false (collapseST D)) = true :=
    rmAfter_pres_ss (collapseST D) A1 false
  have B3 : '\t' ∉ rmAfterNLAux false (collapseST D) :=
    fun h => A2 (mem_rmAfterNLAux (collapseST D) false '\t' h)
  have C1 : noPairB isST (· == '\n')
      (rmBeforeNLAux [] (rmAfterNLAux false (collapseST D))) = true :=
    rmBefore_estab_sn _ [] (by simp)
  have C2 : noPairB (· == '\n') isST
      (rmBeforeNLAux [] (rmAfterNLAux false (collapseST D))) = true :=
    rmBefore_pres_ns _ [] (by simp) B1
  have C3 : noPairB isST isST
      (rmBeforeNLAux [] (rmAfterNLAux false (collapseST D))) = true :=
    rmBefore_pres_ss _ [] (Or.inl rfl) (by simp) B2 (Or.inl rfl)
  have C4 : '\t' ∉ rmBeforeNLAux [] (rmAfterNLAux false (collapseST D)) := by
    intro h
    rcases mem_rmBeforeNLAux _ [] '\t' h with h2 | h2
    · simp at h2
    · exact B3 h2
  have D1 : noPairB isST (· == '\n')
      (collapseNL3 (rmBeforeNLAux [] (rmAfterNLAux false (collapseST D)))) = true :=
    collapseNL3_pres_pair _ C1
  have D2 : noPairB (· == '\n') isST
      (collapseNL3 (rmBeforeNLAux [] (rmAfterNLAux false (collapseST D)))) = true :=
    collapseNL3_pres_pair _ C2
  have D3 : noPairB isST isST
      (collapseNL3 (rmBeforeNLAux [] (rmAfterNLAux false (collapseST D)))) = true :=
    collapseNL3_pres_pair _ C3
  have D4 : noTripleNLB
      (collapseNL3 (rmBeforeNLAux [] (rmAfterNLAux false (collapseST D)))) = true :=
    collapseNL3_estab_triple _
  have D5 : '\t' ∉ collapseNL3 (rmBeforeNLAux [] (rmAfterNLAux false (collapseST D))) :=
    fun h => C4 (mem_collapseNL3 _ '\t' h)
  obtain ⟨pre, suf, hps⟩ :=
    trimL_decomp (collapseNL3 (rmBeforeNLAux [] (rmAfterNLAux false (collapseST D))))
  refine ⟨fun h => D5 (mem_trimL _ '\t' h),
    noPairB_mono (fun a ha => ?_) (fun a ha => ?_) _
      (noPairB_front _ suf (noPairB_suffix pre _ (hps ▸ D3))),
    noPairB_front _ suf (noPairB_suffix pre _ (hps ▸ D1)),
    noPairB_front _ suf (noPairB_suffix pre _ (hps ▸ D2)),
    noTripleNLB_front _ suf (noTripleNLB_suffix pre _ (hps ▸ D4))⟩
  · simp [isST, ha]
  · simp [isST, ha]

/-- C9: For every entity decoder and every input string, the output of
`TextFormatter.stripFormatting` contains no tab character, no two consecutive
spaces, no three consecutive line breaks, and no space or tab adjacent to a
line break on either side, and it carries no leading or trailing whitespace
(it is a fixed point of trimming).  The whitespace normalization runs after
the decoding step, so this holds for an arbitrary `decode`. -/
theorem c9_strip_formatting_invariants (decode : String → String) (text : String) :
    '\t' ∉ (TextFormatter.stripFormatting decode text).data ∧
    noPairB (· == ' ') (· == ' ') (TextFormatter.stripFormatting decode text).data = true ∧
    noPairB isST (· == '\n') (TextFormatter.stripFormatting decode text).data = true ∧
    noPairB (· == '\n') isST (TextFormatter.stripFormatting decode text).data = true ∧
    noTripleNLB (TextFormatter.stripFormatting decode text).data = true ∧
    trimS (TextFormatter.stripFormatting decode text) =
      TextFormatter.stripFormatting decode text := by
  by_cases htext : text = ""
  · subst htext
    have he : TextFormatter.stripFormatting decode "" = "" := by
      unfold TextFormatter.stripFormatting
      exact if_pos rfl
    rw [he]
    exact ⟨by decide, rfl, rfl, rfl, rfl, by decide⟩
  · have he : TextFormatter.stripFormatting decode text =
        String.mk (trimL (collapseNL3 (rmBeforeNLAux [] (rmAfterNLAux false
          (collapseST (decode (String.mk (stripTags text.data))).data))))) := by
      unfold TextFormatter.stripFormatting
      rw [if_neg htext]
      rfl
    rw [he]
    obtain ⟨s1, s2, s3, s4, s5⟩ :=
      stripChain_invariants (decode (String.mk (stripTags text.data))).data
    refine ⟨s1, s2, s3, s4, s5, ?_⟩
    show String.mk (trimL (trimL (collapseNL3 (rmBeforeNLAux [] (rmAfterNLAux false
      (collapseST (decode (String.mk (stripTags text.data))).data)))))) = _
    rw [trimL_idem]

end Texty
